import Mathlib

/-!
Shallow embedding of the block-fetch cache engine of `fetch.go` (package
`main` of the rufs repository), together with theorems checking the
natural-language specification against it.

Conventions of the embedding:
* Go `int`/`int64` offsets and sizes are modelled as `Nat`: every claim
  constrains them to be non-negative, and Go's truncated division agrees
  with `Nat` division on non-negative operands.
* Go byte slices are `List UInt8`; a nil slice cell of `h.cache` is
  `Option.none`, a populated cell is `Option.some buf`.
* The per-block in-flight channel `h.active[b]` is modelled by a `Bool`
  in the sequential embedding (`true` = a marker, open or already closed,
  is present; `false` = the `nil` channel), and by a three-state `Marker`
  in the concurrent transition system used for the single-flight claims.
* Go slice indexing is bounds-checked; an out-of-range index panics.  The
  embedding routes every such access through an explicit bound test and
  surfaces the panic as the `oobR` outcome / a `none` result.
* Network I/O is an oracle `net : Nat → Option Buf` mapping a block start
  offset to the bytes delivered by `realFetch` (`none` = every peer
  failed, so the last error is recorded).  The sequential embedding of
  `Read` resolves each launched fetch with this oracle at the point the
  code would wait for it, which matches the code's behaviour for a single
  caller and no cancellation.
* `fetches` is an instrumentation counter (fetch launches per block),
  mirroring the fetch counter the spec says tests observe; it changes
  exactly when `pfHandle.fetch` runs.
-/

namespace Rufs

/-- Byte buffer (Go `[]byte`). -/
abbrev Buf := List UInt8

/-- The error recorded by a failed `realFetch` (all peers failed). -/
inductive FErr
  | fetchFailed
deriving DecidableEq, Repr

/-- Configuration of a `Fetcher` (`fetch.go` flags): `blockSize = 1 << fetch_block_size_power`
and `prefetch_blocks`. -/
structure Fetcher where
  blockSize : Nat
  prefetchBlocks : Nat
deriving DecidableEq, Repr

/-- State of a `pfHandle`: content size, length of the `cache`/`active`
arrays, the arrays themselves (total functions; indices `≥ numBlocks`
are never read by the embedding without a bound check), the shared last
error, and the instrumentation counter of fetch launches per block. -/
structure Handle where
  hash : String
  size : Nat
  numBlocks : Nat
  cache : Nat → Option Buf
  active : Nat → Bool
  lastErr : Option FErr
  fetches : Nat → Nat

/-- The list of block start offsets covered by `Read(offset, n)`:
`for b := offset / bs; (offset+n+bs-1)/bs > b; b++ { blocks = append(blocks, b*bs) }`. -/
def coveringBlocks (bs offset n : Nat) : List Nat :=
  (List.range' (offset / bs) ((offset + n + bs - 1) / bs - offset / bs)).map (· * bs)

/-- `pfHandle.fetch(o)` together with the completion of the goroutine it
spawns (sequential semantics): the in-flight marker for block `o/bs` is
created, `realFetch` resolves via the oracle `net`, and under the mutex
either the buffer is stored or the shared error is recorded; either way
the marker is closed (it therefore stays present). -/
def fetchStep (bs : Nat) (net : Nat → Option Buf) (h : Handle) (o : Nat) : Handle :=
  let b := o / bs
  match net o with
  | some buf =>
    { h with cache := fun i => if i = b then some buf else h.cache i
             active := fun i => if i = b then true else h.active i
             fetches := fun i => if i = b then h.fetches i + 1 else h.fetches i }
  | none =>
    { h with lastErr := some .fetchFailed
             active := fun i => if i = b then true else h.active i
             fetches := fun i => if i = b then h.fetches i + 1 else h.fetches i }

/-- The first loop of `pfHandle.Read` (under the mutex): for every needed
block, if it is not cached, launch a fetch when no marker exists and add
the marker to the wait list.  `none` models the Go panic when a block
index falls outside the `cache`/`active` arrays. -/
def launchLoop (bs : Nat) (net : Nat → Option Buf) :
    List Nat → Handle → List Nat → Option (Handle × List Nat)
  | [], h, unfetched => some (h, unfetched)
  | o :: rest, h, unfetched =>
    if o / bs < h.numBlocks then
      if (h.cache (o / bs)).isNone then
        if h.active (o / bs) then
          launchLoop bs net rest h (unfetched ++ [o / bs])
        else
          launchLoop bs net rest (fetchStep bs net h o) (unfetched ++ [o / bs])
      else launchLoop bs net rest h unfetched
    else none

/-- The "Ugly-ass purging" step of `pfHandle.Read`:
`if b := blocks[0]/bs - 1; b > 0 && h.cache[b] != nil { h.cache[b] = nil; h.active[b] = nil }`.
`firstO` is `blocks[0]`; `none` models an out-of-range panic. -/
def purgeStep (bs : Nat) (h : Handle) (firstO : Nat) : Option Handle :=
  if 0 < firstO / bs - 1 then
    if firstO / bs - 1 < h.numBlocks then
      if (h.cache (firstO / bs - 1)).isSome then
        some { h with
                cache := fun i => if i = firstO / bs - 1 then none else h.cache i
                active := fun i => if i = firstO / bs - 1 then false else h.active i }
      else some h
    else none
  else some h

/-- One iteration of the prefetch loop of `pfHandle.Read`:
`b := blocks[len(blocks)-1]/bs + 1 + i; if b*bs < h.size && h.cache[b] == nil && h.active[b] == nil { h.fetch(b * bs) }`. -/
def prefetchStep (bs : Nat) (net : Nat → Option Buf) (h : Handle) (lastO i : Nat) :
    Option Handle :=
  if (lastO / bs + 1 + i) * bs < h.size then
    if lastO / bs + 1 + i < h.numBlocks then
      if (h.cache (lastO / bs + 1 + i)).isNone ∧ h.active (lastO / bs + 1 + i) = false then
        some (fetchStep bs net h ((lastO / bs + 1 + i) * bs))
      else some h
    else none
  else some h

/-- The prefetch loop, iterating `i = 0, …` over the given index list
(`List.range prefetchBlocks` in `pfRead`). -/
def prefetchLoop (bs : Nat) (net : Nat → Option Buf) (lastO : Nat) :
    List Nat → Handle → Option Handle
  | [], h => some h
  | i :: rest, h =>
    match prefetchStep bs net h lastO i with
    | none => none
    | some h₂ => prefetchLoop bs net lastO rest h₂

/-- Result of the gather loop of `pfHandle.Read`. -/
inductive GatherRes
  | oobG
  | missing
  | got (bufs : List Buf)
deriving DecidableEq, Repr

/-- The second loop of `pfHandle.Read` (under the mutex, after the waits):
collect the buffer of every needed block; if one is still absent, the
shared last error is returned (`missing`). -/
def gatherLoop (bs : Nat) (h : Handle) : List Nat → List Buf → GatherRes
  | [], acc => .got acc
  | o :: rest, acc =>
    let b := o / bs
    if b < h.numBlocks then
      match h.cache b with
      | none => .missing
      | some buf => gatherLoop bs h rest (acc ++ [buf])
    else .oobG

/-- Replace the last element of a list (Go `bufs[len(bufs)-1] = …`). -/
def setLast (f : Buf → Buf) : List Buf → List Buf
  | [] => []
  | [b] => [f b]
  | b :: rest => b :: setLast f rest

/-- The tail-trimming step of `pfHandle.Read`:
`if cut := int((bo + int64(size)) % bs64); cut > 0 { l := len(bufs)-1; if len(bufs[l]) > cut { bufs[l] = bufs[l][:cut] } }`. -/
def tailCut (bs bo n : Nat) (bufs : List Buf) : List Buf :=
  let cut := (bo + n) % bs
  if 0 < cut then
    setLast (fun last => if cut < last.length then last.take cut else last) bufs
  else bufs

/-- The head-trimming step of `pfHandle.Read`:
`if bo > 0 { bufs[0] = bufs[0][bo:] }` (Go slicing; in the regimes the
theorems cover, `bo` never exceeds the buffer length). -/
def headTrim (bo : Nat) (bufs : List Buf) : List Buf :=
  if 0 < bo then
    match bufs with
    | [] => []
    | b :: rest => b.drop bo :: rest
  else bufs

/-- Result assembly of `pfHandle.Read`: a single buffer is returned
directly, otherwise the buffers are appended in block order. -/
def assemble (bufs : List Buf) : Buf :=
  match bufs with
  | [b] => b
  | _ => bufs.foldl (· ++ ·) []

/-- Outcome of `pfHandle.Read`: `success data` is `(data, nil)`,
`failure e` is the `return nil, h.lastErr` branch, and `oobR` is a Go
index-out-of-range panic. -/
inductive ReadResult
  | success (data : Buf)
  | failure (e : Option FErr)
  | oobR
deriving DecidableEq, Repr

/-- Sequential embedding of `pfHandle.Read(ctx, offset, n)` for a single
caller whose context is never cancelled: launched fetches resolve via
`net` before the waits, so every wait completes.  Returns the Go result
together with the final handle state. -/
def pfRead (cfg : Fetcher) (net : Nat → Option Buf) (h : Handle) (offset n : Nat) :
    ReadResult × Handle :=
  if h.size ≤ offset then (.success [], h)
  else
    let bs := cfg.blockSize
    let blocks := coveringBlocks bs offset n
    match launchLoop bs net blocks h [] with
    | none => (.oobR, h)
    | some (h₁, _unfetched) =>
      match blocks with
      | [] => (.oobR, h₁)
      | o₀ :: rest =>
        match purgeStep bs h₁ o₀ with
        | none => (.oobR, h₁)
        | some h₂ =>
          match prefetchLoop bs net ((o₀ :: rest).getLast (List.cons_ne_nil o₀ rest))
              (List.range cfg.prefetchBlocks) h₂ with
          | none => (.oobR, h₂)
          | some h₃ =>
            match gatherLoop bs h₃ blocks [] with
            | .oobG => (.oobR, h₃)
            | .missing => (.failure h₃.lastErr, h₃)
            | .got bufs =>
              let bo := offset - o₀
              let bufs₁ := tailCut bs bo n bufs
              let bufs₂ := headTrim bo bufs₁
              (.success (assemble bufs₂), h₃)

/-- The wait list a `Read` collects (the markers it waits on), as block
indices. -/
def pfReadWaitList (cfg : Fetcher) (net : Nat → Option Buf) (h : Handle) (offset n : Nat) :
    List Nat :=
  if h.size ≤ offset then []
  else
    match launchLoop cfg.blockSize net (coveringBlocks cfg.blockSize offset n) h [] with
    | some (_, unfetched) => unfetched
    | none => []

/-! ### Peer links and the registry (`Fetcher.NewPeer`, `pfPeer.MeasureLatency`,
`Fetcher.NewHandle`) -/

/-- A `pfPeer`: identity and the optional measured latency (a duration,
modelled as `Nat` nanoseconds). -/
structure Peer where
  ident : String
  latency : Option Nat
deriving DecidableEq, Repr

/-- Oracle for the peer-side network effects: whether `NewRUFSClient`
succeeds for an identity, whether each of the two `Ping` probes succeeds,
and the measured round trip of the second probe. -/
structure NetEnv where
  connectOk : String → Bool
  ping1Ok : String → Bool
  ping2Ok : String → Bool
  rtt : String → Nat

/-- Error of the latency probe (`pfPeer.MeasureLatency`). -/
inductive PeerErr
  | pingFailed
deriving DecidableEq, Repr

/-- `pfPeer.MeasureLatency`: a warm-up ping, then a timed ping; on either
failure the latency is reset to `nil` and the error returned; on success
the round trip is stored. -/
def measureLatency (env : NetEnv) (r : Peer) : Peer × Option PeerErr :=
  if env.ping1Ok r.ident = false then ({ r with latency := none }, some .pingFailed)
  else if env.ping2Ok r.ident = false then ({ r with latency := none }, some .pingFailed)
  else ({ r with latency := some (env.rtt r.ident) }, none)

/-- Go's `strings.Split` for a one-character separator, over the
character list of the string (executable in the kernel, unlike
`String.splitOn`). -/
def splitOnAt (sep : Char) : List Char → List (List Char)
  | [] => [[]]
  | c :: rest =>
    if c = sep then [] :: splitOnAt sep rest
    else match splitOnAt sep rest with
      | [] => [[c]]
      | g :: gs => (c :: g) :: gs

/-- `Fetcher.NewPeer(ident)`: split the identity at `"@"`
(`strings.Split(ident, "@")`), connect (`NewRUFSClient`, via the
oracle), then call `MeasureLatency` and **discard its result**, exactly
as the source does (`r.MeasureLatency()` on its own line); `none` is a
connection error.  An identity without `"@"` would make the source
panic on `ex[1]`; the embedding returns `none` for it (never exercised
by the theorems, whose identities are well formed). -/
def newPeer (env : NetEnv) (ident : String) : Option Peer :=
  match splitOnAt '@' ident.data with
  | _user :: _addr :: _ =>
    if env.connectOk ident then
      let r : Peer := { ident := ident, latency := none }
      some (measureLatency env r).1
    else none
  | _ => none

/-- The fetcher's peer registry `f.peers`. -/
def Reg := String → Option Peer

/-- The peer loop of `Fetcher.NewHandle`: for each candidate identity,
reuse the registry entry if present, otherwise create the peer and
insert it when creation reported no error; `found` records whether any
candidate was usable. -/
def addPeersLoop (env : NetEnv) : List String → Reg → Bool → Reg × Bool
  | [], reg, found => (reg, found)
  | p :: ps, reg, found =>
    match reg p with
    | some _ => addPeersLoop env ps reg true
    | none =>
      match newPeer env p with
      | some r => addPeersLoop env ps (fun q => if q = p then some r else reg q) true
      | none => addPeersLoop env ps reg found

/-- `Fetcher.NewHandle(hash, size, peers)`: allocates the `cache` and
`active` arrays with `size/blockSize + 1` slots, resolves the candidate
peers, and fails (`none`) only when no peer was usable.  Also returns
the updated registry. -/
def Fetcher.newHandle (f : Fetcher) (env : NetEnv) (reg : Reg) (hash : String)
    (size : Nat) (peers : List String) : Option Handle × Reg :=
  let blocks := size / f.blockSize + 1
  let h : Handle :=
    { hash := hash, size := size, numBlocks := blocks
      cache := fun _ => none, active := fun _ => false
      lastErr := none, fetches := fun _ => 0 }
  let rf := addPeersLoop env peers reg false
  if rf.2 then (some h, rf.1) else (none, rf.1)

/-! ### The sequential stream wrapper (`pfStream.Read`) -/

/-- Errors surfaced by `pfStream.Read`: an error of the underlying
`pfHandle.Read`, or `io.EOF`. -/
inductive SErr
  | fetch (e : FErr)
  | eofS
deriving DecidableEq, Repr

/-- A `pfStream`: the cursor offset (the handle reference and the
cancellation scope are implicit — the underlying read is passed as a
function). -/
structure Stream where
  offset : Nat
deriving DecidableEq, Repr

/-- `pfStream.Read(p)` with `plen = len(p)`, over an abstract underlying
read `readFn offset plen`: on a non-nil error return `(0, err)` leaving
the cursor unchanged; otherwise `n = len(data)`, the cursor advances by
`n`, and `io.EOF` is reported when `n < len(p)`.  A `nil, nil` result of
the handle (`failure none`) takes the success path with no data, as in
Go, since `err != nil` is false.  `none` propagates a panic of the
underlying read. -/
def streamRead (readFn : Nat → Nat → ReadResult) (s : Stream) (plen : Nat) :
    Option ((Nat × Option SErr) × Stream) :=
  match readFn s.offset plen with
  | .oobR => none
  | .failure (some e) => some ((0, some (.fetch e)), s)
  | .failure none =>
    let n := 0
    some ((n, if n < plen then some .eofS else none), { s with offset := s.offset + n })
  | .success data =>
    let n := data.length
    some ((n, if n < plen then some .eofS else none), { s with offset := s.offset + n })

/-! ### Concurrent transition system for the single-flight invariant

The mutex of `pfHandle` makes the whole first half of `Read` (launch
loop, purge, prefetch) one atomic step, and each fetch goroutine's
store-and-close another.  The state below follows the
handle fields, with the in-flight channel refined into three states and
two ghost counters: `running b` counts the live fetch goroutines of
block `b`, `fetchesC b` the launches. -/

/-- State of the per-block in-flight channel: no channel (`nil`), an
open channel (a fetch goroutine is running), or a closed channel (the
fetch completed). -/
inductive Marker
  | absent
  | inFlight
  | closed
deriving DecidableEq, Repr

/-- Concurrent handle state. -/
structure CState where
  size : Nat
  numBlocks : Nat
  cache : Nat → Option Buf
  marker : Nat → Marker
  lastErr : Option FErr
  running : Nat → Nat
  fetchesC : Nat → Nat

/-- `pfHandle.fetch(o)` in the concurrent model: create the marker and
start one goroutine (no completion yet). -/
def launchC (bs : Nat) (s : CState) (o : Nat) : CState :=
  let b := o / bs
  { s with marker := fun i => if i = b then .inFlight else s.marker i
           running := fun i => if i = b then s.running i + 1 else s.running i
           fetchesC := fun i => if i = b then s.fetchesC i + 1 else s.fetchesC i }

/-- The launch loop of `Read` in the concurrent model. -/
def needLoop (bs : Nat) : List Nat → CState → CState
  | [], s => s
  | o :: rest, s =>
    if (s.cache (o / bs)).isNone then
      if s.marker (o / bs) = .absent then needLoop bs rest (launchC bs s o)
      else needLoop bs rest s
    else needLoop bs rest s

/-- The purge step of `Read` in the concurrent model. -/
def purgeC (bs : Nat) (s : CState) (firstO : Nat) : CState :=
  if 0 < firstO / bs - 1 then
    if (s.cache (firstO / bs - 1)).isSome then
      { s with cache := fun i => if i = firstO / bs - 1 then none else s.cache i
               marker := fun i => if i = firstO / bs - 1 then .absent else s.marker i }
    else s
  else s

/-- The prefetch loop of `Read` in the concurrent model. -/
def prefetchC (bs : Nat) (s : CState) (lastO : Nat) : List Nat → CState
  | [] => s
  | i :: rest =>
    prefetchC bs
      (if (lastO / bs + 1 + i) * bs < s.size then
        if (s.cache (lastO / bs + 1 + i)).isNone ∧
            s.marker (lastO / bs + 1 + i) = .absent then
          launchC bs s ((lastO / bs + 1 + i) * bs)
        else s
      else s) lastO rest

/-- The whole mutex-protected first half of `Read(offset, n)` as one
atomic step (the mutex is held from the launch loop through prefetch). -/
def readStepC (cfg : Fetcher) (s : CState) (offset n : Nat) : CState :=
  if s.size ≤ offset then s
  else
    let bs := cfg.blockSize
    let blocks := coveringBlocks bs offset n
    match blocks with
    | [] => s
    | o₀ :: rest =>
      let s₁ := needLoop bs blocks s
      let s₂ := purgeC bs s₁ o₀
      prefetchC bs s₂ ((o₀ :: rest).getLast (List.cons_ne_nil o₀ rest))
        (List.range cfg.prefetchBlocks)

/-- Completion of the fetch goroutine of block `b` (under the mutex):
store the buffer or record the error, close the marker. -/
def completeC (s : CState) (b : Nat) (res : Option Buf) : CState :=
  match res with
  | some buf =>
    { s with cache := fun i => if i = b then some buf else s.cache i
             marker := fun i => if i = b then .closed else s.marker i
             running := fun i => if i = b then s.running i - 1 else s.running i }
  | none =>
    { s with lastErr := some .fetchFailed
             marker := fun i => if i = b then .closed else s.marker i
             running := fun i => if i = b then s.running i - 1 else s.running i }

/-- Interleaving steps of the concurrent system: an atomic `Read`
bookkeeping step (for a request with `n ≥ 1` whose needed blocks lie
inside the arrays — a request violating that bound panics instead of
stepping), or the completion of a running fetch with an arbitrary
network outcome. -/
inductive CStep (cfg : Fetcher) : CState → CState → Prop
  | read (s : CState) (offset n : Nat) (hbs : 0 < cfg.blockSize) (hn : 1 ≤ n)
      (hin : ∀ o ∈ coveringBlocks cfg.blockSize offset n, o / cfg.blockSize < s.numBlocks) :
      CStep cfg s (readStepC cfg s offset n)
  | complete (s : CState) (b : Nat) (res : Option Buf)
      (hrun : s.marker b = .inFlight) :
      CStep cfg s (completeC s b res)

/-- Reachability in the concurrent system. -/
def CReach (cfg : Fetcher) : CState → CState → Prop :=
  Relation.ReflTransGen (CStep cfg)

/-- The single-flight invariant: the running-goroutine count of a block
is `1` exactly when its marker is open, and an open marker means the
slot is still empty. -/
def InvC (s : CState) : Prop :=
  ∀ b, (s.running b = if s.marker b = .inFlight then 1 else 0) ∧
    (s.marker b = .inFlight → s.cache b = none)

/-! ### Canonical block content

A peer serving a file of `size` bytes answers a block read at offset `o`
with `min bs (size - o)` bytes (`server.go` reads into a `bs`-byte
buffer and returns `buffer[:n]`, with `n = 0` at or past end of file).
The byte values are irrelevant to every claim, so the canonical content
is zero-filled. -/

/-- The buffer a fetch of block `b` stores when every peer serves the
actual content. -/
def canonBlock (bs size b : Nat) : Buf := List.replicate (min bs (size - b * bs)) 0

/-- The network oracle of a fully available file: every block fetch
succeeds with the canonical content. -/
def canonNet (bs size : Nat) : Nat → Option Buf :=
  fun o => some (List.replicate (min bs (size - o)) 0)

/-! ### Concrete example instances (shared by witnesses and
counterexamples) -/

/-- A fetcher with block size `4 = 2^2` and no prefetch. -/
def exCfg : Fetcher := ⟨4, 0⟩

/-- A fresh handle (as produced by `NewHandle`) for `size` bytes of
content with block size 4. -/
def exHandle (size : Nat) : Handle :=
  { hash := "h", size := size, numBlocks := size / 4 + 1
    cache := fun _ => none, active := fun _ => false
    lastErr := none, fetches := fun _ => 0 }

/-- An all-healthy network environment for concrete instances. -/
def exEnv : NetEnv := ⟨fun _ => true, fun _ => true, fun _ => true, fun _ => 7⟩

/-- The empty peer registry. -/
def exReg : Reg := fun _ => none

/-- An environment whose first liveness probe always fails (connection
itself succeeds). -/
def cexEnv : NetEnv := ⟨fun _ => true, fun _ => false, fun _ => true, fun _ => 0⟩

/-- A network on which every peer fails every block read. -/
def exNetFail : Nat → Option Buf := fun _ => none

/-- A handle state with one cached block (index 0), as left behind by an
earlier read of block 0. -/
def exHandleC0 : Handle :=
  { exHandle 20 with cache := fun b => if b = 0 then some (List.replicate 4 0) else none }

/-- A handle state with one cached block (index 1), as left behind by an
earlier read of block 1. -/
def exHandleC1 : Handle :=
  { exHandle 20 with cache := fun b => if b = 1 then some (List.replicate 4 0) else none }

/-- The handle `NewHandle` builds for 5000 bytes of content at block size
4096. -/
def exHandleBig : Handle :=
  { hash := "h", size := 5000, numBlocks := 5000 / 4096 + 1
    cache := fun _ => none, active := fun _ => false
    lastErr := none, fetches := fun _ => 0 }

/-- A fresh concurrent state for `size` bytes with block size 4. -/
def exCState (size : Nat) : CState :=
  { size := size, numBlocks := size / 4 + 1, cache := fun _ => none
    marker := fun _ => .absent, lastErr := none
    running := fun _ => 0, fetchesC := fun _ => 0 }

/-! ### Helper lemmas: the covering-block list -/

theorem coveringBlocks_eq (bs offset n : Nat) :
    coveringBlocks bs offset n =
      (List.range' (offset / bs) ((offset + n + bs - 1) / bs - offset / bs)).map (· * bs) := rfl

/-- With `n ≥ 1` the covering-block range is nonempty:
`offset/bs < (offset+n+bs-1)/bs`. -/
theorem covEnd_pos {bs offset n : Nat} (hbs : 0 < bs) (hn : 1 ≤ n) :
    offset / bs < (offset + n + bs - 1) / bs := by
  have h3 : offset + (n - 1) + bs = offset + n + bs - 1 := by omega
  have h1 : offset / bs ≤ (offset + (n - 1)) / bs := Nat.div_le_div_right (by omega)
  have h2 : (offset + (n - 1)) / bs < (offset + n + bs - 1) / bs := by
    rw [← h3, Nat.add_div_right _ hbs]; omega
  omega

theorem mem_coveringBlocks {bs offset n o : Nat} (ho : o ∈ coveringBlocks bs offset n) :
    ∃ i, o = i * bs ∧ offset / bs ≤ i ∧ i < (offset + n + bs - 1) / bs := by
  rcases List.mem_map.1 ho with ⟨i, hi, rfl⟩
  rcases List.mem_range'.1 hi with ⟨j, hj, rfl⟩
  exact ⟨offset / bs + 1 * j, rfl, by omega, by omega⟩

theorem coveringBlocks_idx_lt {bs offset n o : Nat} (hbs : 0 < bs)
    (ho : o ∈ coveringBlocks bs offset n) :
    offset / bs ≤ o / bs ∧ o / bs < (offset + n + bs - 1) / bs := by
  rcases mem_coveringBlocks ho with ⟨i, rfl, h₁, h₂⟩
  rw [Nat.mul_div_cancel _ hbs]
  exact ⟨h₁, h₂⟩

theorem coveringBlocks_cons {bs offset n : Nat} (hbs : 0 < bs) (hn : 1 ≤ n) :
    ∃ rest, coveringBlocks bs offset n = (offset / bs) * bs :: rest := by
  have hlt := @covEnd_pos bs offset n hbs hn
  obtain ⟨k, hk⟩ : ∃ k, (offset + n + bs - 1) / bs - offset / bs = k + 1 :=
    ⟨(offset + n + bs - 1) / bs - offset / bs - 1, by omega⟩
  unfold coveringBlocks
  rw [hk, List.range'_succ, List.map_cons]
  exact ⟨_, rfl⟩

theorem coveringBlocks_getLast {bs offset n : Nat} (hbs : 0 < bs) (hn : 1 ≤ n)
    (hne : coveringBlocks bs offset n ≠ []) :
    (coveringBlocks bs offset n).getLast hne = ((offset + n + bs - 1) / bs - 1) * bs := by
  have hlt := @covEnd_pos bs offset n hbs hn
  rw [List.getLast_eq_getElem]
  unfold coveringBlocks at *
  simp only [List.length_map, List.length_range', List.getElem_map, List.getElem_range']
  congr 1
  generalize hE : (offset + n + bs - 1) / bs = E at *
  generalize hF : offset / bs = F at *
  omega

/-! ### Helper lemmas: `fetchStep` -/

theorem fetchStep_size (bs : Nat) (net : Nat → Option Buf) (h : Handle) (o : Nat) :
    (fetchStep bs net h o).size = h.size := by
  unfold fetchStep; cases net o <;> rfl

theorem fetchStep_numBlocks (bs : Nat) (net : Nat → Option Buf) (h : Handle) (o : Nat) :
    (fetchStep bs net h o).numBlocks = h.numBlocks := by
  unfold fetchStep; cases net o <;> rfl

theorem fetchStep_cache_ne {bs : Nat} {net : Nat → Option Buf} {h : Handle} {o j : Nat}
    (hj : j ≠ o / bs) : (fetchStep bs net h o).cache j = h.cache j := by
  unfold fetchStep; cases net o <;> simp [hj]

theorem fetchStep_active_ne {bs : Nat} {net : Nat → Option Buf} {h : Handle} {o j : Nat}
    (hj : j ≠ o / bs) : (fetchStep bs net h o).active j = h.active j := by
  unfold fetchStep; cases net o <;> simp [hj]

theorem fetchStep_fetches_ne {bs : Nat} {net : Nat → Option Buf} {h : Handle} {o j : Nat}
    (hj : j ≠ o / bs) : (fetchStep bs net h o).fetches j = h.fetches j := by
  unfold fetchStep; cases net o <;> simp [hj]

theorem fetchStep_fetches_self (bs : Nat) (net : Nat → Option Buf) (h : Handle) (o : Nat) :
    (fetchStep bs net h o).fetches (o / bs) = h.fetches (o / bs) + 1 := by
  unfold fetchStep; cases net o <;> simp

theorem fetchStep_active_self (bs : Nat) (net : Nat → Option Buf) (h : Handle) (o : Nat) :
    (fetchStep bs net h o).active (o / bs) = true := by
  unfold fetchStep; cases net o <;> simp

theorem fetchStep_cache_some {bs : Nat} {net : Nat → Option Buf} {h : Handle} {o j : Nat}
    {v : Buf} (hnone : h.cache (o / bs) = none) (hv : h.cache j = some v) :
    (fetchStep bs net h o).cache j = some v := by
  rcases eq_or_ne j (o / bs) with rfl | hj
  · rw [hnone] at hv; cases hv
  · rw [fetchStep_cache_ne hj]; exact hv

/-! ### Helper lemmas: `launchLoop` -/

theorem launchLoop_meta {bs : Nat} {net : Nat → Option Buf} :
    ∀ {blocks : List Nat} {h : Handle} {u : List Nat} {h' : Handle} {u' : List Nat},
      launchLoop bs net blocks h u = some (h', u') →
      h'.size = h.size ∧ h'.numBlocks = h.numBlocks
  | [], h, u, h', u', heq => by
    simp only [launchLoop, Option.some.injEq, Prod.mk.injEq] at heq
    rw [← heq.1]; exact ⟨rfl, rfl⟩
  | o :: rest, h, u, h', u', heq => by
    simp only [launchLoop] at heq
    split_ifs at heq with h₁ h₂ h₃
    · exact launchLoop_meta heq
    · have := launchLoop_meta heq
      rw [fetchStep_size, fetchStep_numBlocks] at this
      exact this
    · exact launchLoop_meta heq

theorem launchLoop_isSome {bs : Nat} {net : Nat → Option Buf} :
    ∀ {blocks : List Nat} {h : Handle} {u : List Nat},
      (∀ o ∈ blocks, o / bs < h.numBlocks) →
      ∃ h' u', launchLoop bs net blocks h u = some (h', u')
  | [], h, u, _ => ⟨h, u, rfl⟩
  | o :: rest, h, u, hin => by
    have hb : o / bs < h.numBlocks := hin o (List.mem_cons_self o rest)
    have hrest : ∀ o' ∈ rest, o' / bs < h.numBlocks :=
      fun o' ho' => hin o' (List.mem_cons_of_mem o ho')
    simp only [launchLoop]
    rw [if_pos hb]
    split_ifs with h₂ h₃
    · exact launchLoop_isSome hrest
    · exact launchLoop_isSome (fun o' ho' => by
        rw [fetchStep_numBlocks]; exact hrest o' ho')
    · exact launchLoop_isSome hrest

theorem launchLoop_notouch {bs : Nat} {net : Nat → Option Buf} :
    ∀ {blocks : List Nat} {h : Handle} {u : List Nat} {h' : Handle} {u' : List Nat},
      launchLoop bs net blocks h u = some (h', u') →
      ∀ j, (∀ o ∈ blocks, o / bs ≠ j) →
        h'.cache j = h.cache j ∧ h'.active j = h.active j ∧ h'.fetches j = h.fetches j
  | [], h, u, h', u', heq => by
    simp only [launchLoop, Option.some.injEq, Prod.mk.injEq] at heq
    rw [← heq.1]; exact fun j _ => ⟨rfl, rfl, rfl⟩
  | o :: rest, h, u, h', u', heq => by
    intro j hj
    have hj₀ : o / bs ≠ j := hj o (List.mem_cons_self o rest)
    have hjr : ∀ o' ∈ rest, o' / bs ≠ j := fun o' ho' => hj o' (List.mem_cons_of_mem o ho')
    simp only [launchLoop] at heq
    split_ifs at heq with h₁ h₂ h₃
    · exact launchLoop_notouch heq j hjr
    · have := launchLoop_notouch heq j hjr
      rw [fetchStep_cache_ne (Ne.symm hj₀), fetchStep_active_ne (Ne.symm hj₀),
        fetchStep_fetches_ne (Ne.symm hj₀)] at this
      exact this
    · exact launchLoop_notouch heq j hjr

theorem launchLoop_mono {bs : Nat} {net : Nat → Option Buf} :
    ∀ {blocks : List Nat} {h : Handle} {u : List Nat} {h' : Handle} {u' : List Nat},
      launchLoop bs net blocks h u = some (h', u') →
      ∀ j v, h.cache j = some v → h'.cache j = some v
  | [], h, u, h', u', heq => by
    simp only [launchLoop, Option.some.injEq, Prod.mk.injEq] at heq
    rw [← heq.1]; exact fun j v hv => hv
  | o :: rest, h, u, h', u', heq => by
    intro j v hv
    simp only [launchLoop] at heq
    split_ifs at heq with h₁ h₂ h₃
    · exact launchLoop_mono heq j v hv
    · exact launchLoop_mono heq j v
        (fetchStep_cache_some (Option.isNone_iff_eq_none.mp h₂) hv)
    · exact launchLoop_mono heq j v hv

/-! ### Helper lemmas: `purgeStep` -/

theorem purgeStep_isSome {bs : Nat} {h : Handle} {firstO : Nat}
    (hlt : firstO / bs - 1 < h.numBlocks) : ∃ h₂, purgeStep bs h firstO = some h₂ := by
  unfold purgeStep
  split_ifs <;> exact ⟨_, rfl⟩

theorem purgeStep_meta {bs : Nat} {h : Handle} {firstO : Nat} {h₂ : Handle}
    (heq : purgeStep bs h firstO = some h₂) :
    h₂.size = h.size ∧ h₂.numBlocks = h.numBlocks ∧ h₂.lastErr = h.lastErr ∧
      h₂.fetches = h.fetches := by
  unfold purgeStep at heq
  split_ifs at heq <;>
    (simp only [Option.some.injEq] at heq; rw [← heq]; exact ⟨rfl, rfl, rfl, rfl⟩)

theorem purgeStep_cache_ne {bs : Nat} {h : Handle} {firstO : Nat} {h₂ : Handle}
    (heq : purgeStep bs h firstO = some h₂) {j : Nat} (hj : j ≠ firstO / bs - 1) :
    h₂.cache j = h.cache j ∧ h₂.active j = h.active j := by
  unfold purgeStep at heq
  split_ifs at heq <;> (simp only [Option.some.injEq] at heq; rw [← heq])
  · constructor <;> simp [hj]
  · exact ⟨rfl, rfl⟩
  · exact ⟨rfl, rfl⟩

theorem purgeStep_clears {bs : Nat} {h : Handle} {firstO : Nat} {h₂ : Handle}
    (heq : purgeStep bs h firstO = some h₂) (hb : 0 < firstO / bs - 1)
    (hc : (h.cache (firstO / bs - 1)).isSome) :
    h₂.cache (firstO / bs - 1) = none ∧ h₂.active (firstO / bs - 1) = false := by
  unfold purgeStep at heq
  rw [if_pos hb] at heq
  split_ifs at heq
  simp only [Option.some.injEq] at heq
  rw [← heq]; simp

theorem purgeStep_mono {bs : Nat} {h : Handle} {firstO : Nat} {h₂ : Handle}
    (heq : purgeStep bs h firstO = some h₂) {j v} (hj : j ≠ firstO / bs - 1)
    (hv : h.cache j = some v) : h₂.cache j = some v := by
  rw [(purgeStep_cache_ne heq hj).1]; exact hv

/-! ### Helper lemmas: `prefetchLoop` -/

/-- Characterisation of the prefetch loop of a handle whose arrays were
allocated by `NewHandle` (`numBlocks = size/bs + 1`): it never panics,
keeps the metadata, and every block slot it touches lies in the prefetch
window, starts inside the content, and was empty with no marker; each
such slot's fetch counter grows by exactly one. -/
theorem prefetchLoop_spec {bs : Nat} {net : Nat → Option Buf} {lastO : Nat} (hbs : 0 < bs) :
    ∀ {is : List Nat} {h : Handle},
      h.numBlocks = h.size / bs + 1 →
      ∃ h', prefetchLoop bs net lastO is h = some h' ∧
        h'.size = h.size ∧ h'.numBlocks = h.numBlocks ∧
        (∀ b, (h'.fetches b ≠ h.fetches b ∨ h'.cache b ≠ h.cache b ∨
            h'.active b ≠ h.active b) →
          ∃ i ∈ is, b = lastO / bs + 1 + i ∧ b * bs < h.size ∧ h.cache b = none ∧
            h.active b = false ∧ h'.fetches b = h.fetches b + 1)
  | [], h, _ => ⟨h, rfl, rfl, rfl, fun b hb => by
      rcases hb with hb | hb | hb <;> exact absurd rfl hb⟩
  | i :: rest, h, hwf => by
    have hstep :
        ∀ h₂, prefetchStep bs net h lastO i = some h₂ →
          (h₂ = h ∨
            (h₂ = fetchStep bs net h ((lastO / bs + 1 + i) * bs) ∧
              (lastO / bs + 1 + i) * bs < h.size ∧
              h.cache (lastO / bs + 1 + i) = none ∧
              h.active (lastO / bs + 1 + i) = false)) := by
      intro h₂ heq
      unfold prefetchStep at heq
      split_ifs at heq with h₁ h₂' h₃
      · rcases h₃ with ⟨hcn, hcf⟩
        simp only [Option.some.injEq] at heq
        exact Or.inr ⟨heq.symm, h₁, Option.isNone_iff_eq_none.mp hcn, hcf⟩
      · simp only [Option.some.injEq] at heq
        exact Or.inl heq.symm
      · simp only [Option.some.injEq] at heq
        exact Or.inl heq.symm
    have hsome : ∃ h₂, prefetchStep bs net h lastO i = some h₂ := by
      unfold prefetchStep
      split_ifs with h₁ h₂' h₃
      · exact ⟨_, rfl⟩
      · exact ⟨_, rfl⟩
      · -- `b*bs < size` but `b ≥ numBlocks` is impossible for an allocated handle
        exfalso
        have hb : h.size / bs + 1 ≤ lastO / bs + 1 + i := by omega
        have : (h.size / bs + 1) * bs ≤ (lastO / bs + 1 + i) * bs :=
          Nat.mul_le_mul_right bs hb
        have hsz : h.size < (h.size / bs + 1) * bs := by
          have hmod := Nat.div_add_mod h.size bs
          have := Nat.mod_lt h.size hbs
          have hexp : (h.size / bs + 1) * bs = bs * (h.size / bs) + bs := by ring
          omega
        omega
      · exact ⟨_, rfl⟩
    obtain ⟨h₂, heq₂⟩ := hsome
    rcases hstep h₂ heq₂ with rfl | ⟨rfl, hin, hcn, hcf⟩
    · obtain ⟨h', hrec, hs, hn, htouch⟩ := @prefetchLoop_spec bs net lastO hbs rest h₂ hwf
      refine ⟨h', by rw [prefetchLoop, heq₂]; exact hrec, hs, hn, fun b hb => ?_⟩
      obtain ⟨i', hi', hprops⟩ := htouch b hb
      exact ⟨i', List.mem_cons_of_mem i hi', hprops⟩
    · set o := (lastO / bs + 1 + i) * bs with ho
      have hob : o / bs = lastO / bs + 1 + i := by rw [ho, Nat.mul_div_cancel _ hbs]
      have hwf₂ : (fetchStep bs net h o).numBlocks = (fetchStep bs net h o).size / bs + 1 := by
        rw [fetchStep_numBlocks, fetchStep_size]; exact hwf
      obtain ⟨h', hrec, hs, hn, htouch⟩ :=
        @prefetchLoop_spec bs net lastO hbs rest (fetchStep bs net h o) hwf₂
      refine ⟨h', by rw [prefetchLoop, heq₂]; exact hrec,
        by rw [hs, fetchStep_size], by rw [hn, fetchStep_numBlocks], fun b hb => ?_⟩
      rcases eq_or_ne b (lastO / bs + 1 + i) with hbeq | hbne
      · -- the slot fetched at this iteration; the rest of the loop leaves it alone
        have hao : b = o / bs := by rw [hob, hbeq]
        have hrest : h'.fetches b = (fetchStep bs net h o).fetches b ∧
            h'.cache b = (fetchStep bs net h o).cache b ∧
            h'.active b = (fetchStep bs net h o).active b := by
          by_contra hcon
          push_neg at hcon
          have hd : h'.fetches b ≠ (fetchStep bs net h o).fetches b ∨
              h'.cache b ≠ (fetchStep bs net h o).cache b ∨
              h'.active b ≠ (fetchStep bs net h o).active b := by tauto
          obtain ⟨i', _, _, _, _, hact, _⟩ := htouch b hd
          rw [hao, fetchStep_active_self] at hact
          cases hact
        have hbo : b * bs = o := by rw [hbeq, ho]
        refine ⟨i, List.mem_cons_self i rest, hbeq, hbo ▸ hin, hbeq ▸ hcn, hbeq ▸ hcf, ?_⟩
        rw [hrest.1, hao, fetchStep_fetches_self]
      · have htransfer : (fetchStep bs net h o).fetches b = h.fetches b ∧
            (fetchStep bs net h o).cache b = h.cache b ∧
            (fetchStep bs net h o).active b = h.active b := by
          rw [← hob] at hbne
          exact ⟨fetchStep_fetches_ne hbne, fetchStep_cache_ne hbne,
            fetchStep_active_ne hbne⟩
        have hb' : h'.fetches b ≠ (fetchStep bs net h o).fetches b ∨
            h'.cache b ≠ (fetchStep bs net h o).cache b ∨
            h'.active b ≠ (fetchStep bs net h o).active b := by
          rcases hb with hb | hb | hb
          · exact Or.inl (by rw [htransfer.1]; exact hb)
          · exact Or.inr (Or.inl (by rw [htransfer.2.1]; exact hb))
          · exact Or.inr (Or.inr (by rw [htransfer.2.2]; exact hb))
        obtain ⟨i', hi', hbi, hbsz, hbc, hba, hbf⟩ := htouch b hb'
        rw [fetchStep_size] at hbsz
        rw [htransfer.2.1] at hbc
        rw [htransfer.2.2] at hba
        rw [htransfer.1] at hbf
        exact ⟨i', List.mem_cons_of_mem i hi', hbi, hbsz, hbc, hba, hbf⟩

/-! ### Helper lemmas: `gatherLoop` -/

theorem gatherLoop_got {bs : Nat} {h : Handle} (c : Nat → Buf) :
    ∀ {blocks : List Nat} {acc : List Buf},
      (∀ o ∈ blocks, o / bs < h.numBlocks ∧ h.cache (o / bs) = some (c (o / bs))) →
      gatherLoop bs h blocks acc = .got (acc ++ blocks.map (fun o => c (o / bs)))
  | [], acc, _ => by simp [gatherLoop]
  | o :: rest, acc, hin => by
    obtain ⟨hb, hc⟩ := hin o (List.mem_cons_self o rest)
    have := @gatherLoop_got bs h c rest (acc ++ [c (o / bs)])
      (fun o' ho' => hin o' (List.mem_cons_of_mem o ho'))
    rw [gatherLoop, if_pos hb, hc]
    show gatherLoop bs h rest (acc ++ [c (o / bs)]) = _
    rw [this]
    simp

theorem canonNet_block {bs size b : Nat} (hbs : 0 < bs) :
    canonNet bs size (b * bs) = some (canonBlock bs size ((b * bs) / bs)) := by
  rw [Nat.mul_div_cancel _ hbs]; rfl

theorem canonBlock_length (bs size b : Nat) :
    (canonBlock bs size b).length = min bs (size - b * bs) := List.length_replicate _ _


/-! ### Helper lemmas: trimming and assembly -/

theorem setLast_append (f : Buf → Buf) :
    ∀ (xs : List Buf) (y : Buf), setLast f (xs ++ [y]) = xs ++ [f y]
  | [], y => rfl
  | [a], y => rfl
  | a :: b :: xs, y => by
    show a :: setLast f (b :: (xs ++ [y])) = a :: (b :: xs ++ [f y])
    rw [← List.cons_append, setLast_append f (b :: xs) y]

theorem foldl_append_length :
    ∀ (l : List Buf) (acc : Buf),
      (l.foldl (· ++ ·) acc).length = acc.length + (l.map List.length).sum
  | [], acc => by simp
  | x :: l, acc => by
    simp only [List.foldl_cons, List.map_cons, List.sum_cons,
      foldl_append_length l (acc ++ x), List.length_append]
    omega

theorem assemble_length (bufs : List Buf) :
    (assemble bufs).length = (bufs.map List.length).sum := by
  rcases bufs with _ | ⟨b, _ | ⟨c, rest⟩⟩
  · rfl
  · simp [assemble]
  · show ((b :: c :: rest).foldl (· ++ ·) []).length = _
    rw [foldl_append_length]
    simp

/-- Sum of the canonical block lengths over a run of consecutive blocks. -/
theorem sum_canonLens (bs size : Nat) :
    ∀ (k f : Nat),
      ((List.range' f k).map (fun b => min bs (size - b * bs))).sum =
        min ((f + k) * bs) size - f * bs
  | 0, f => by
    simp only [List.range', List.map_nil, List.sum_nil, Nat.add_zero]
    omega
  | k + 1, f => by
    rw [List.range'_succ, List.map_cons, List.sum_cons, sum_canonLens bs size k (f + 1)]
    have e1 : (f + 1) * bs = f * bs + bs := by ring
    have e2 : (f + 1 + k) * bs = f * bs + bs + k * bs := by ring
    have e3 : (f + (k + 1)) * bs = f * bs + bs + k * bs := by ring
    rw [e1, e2, e3]
    omega

/-! ### The `Read` pipeline under in-range requests -/

/-- Every covering block of a request with `offset + n ≤ NB * bs` has its
index inside an `NB`-slot array. -/
theorem cov_in_range {bs offset n NB : Nat} (hbs : 0 < bs)
    (hbound : offset + n ≤ NB * bs) :
    ∀ o ∈ coveringBlocks bs offset n, o / bs < NB := by
  intro o ho
  have h2 := (coveringBlocks_idx_lt hbs ho).2
  have hd := Nat.div_add_mod (offset + n + bs - 1) bs
  have hm := Nat.mod_lt (offset + n + bs - 1) hbs
  have hcomm : bs * ((offset + n + bs - 1) / bs) = ((offset + n + bs - 1) / bs) * bs :=
    Nat.mul_comm _ _
  have hlt : (offset + n + bs - 1) / bs * bs < (NB + 1) * bs := by
    have hnb : (NB + 1) * bs = NB * bs + bs := by ring
    omega
  have := (Nat.mul_lt_mul_right hbs).mp hlt
  omega

/-- Unfolding of `pfRead` for a request whose covering blocks all fit in
the allocated arrays: the launch loop, purge and prefetch all succeed,
and the result is decided by the gather loop on the final state. -/
theorem pfRead_pipeline (cfg : Fetcher) (net : Nat → Option Buf) (h : Handle)
    (offset n : Nat) (hbs : 0 < cfg.blockSize)
    (hwf : h.numBlocks = h.size / cfg.blockSize + 1)
    (hoff : offset < h.size) (hn : 1 ≤ n)
    (hbound : offset + n ≤ h.numBlocks * cfg.blockSize) :
    ∃ h₁ u h₂ h₃,
      launchLoop cfg.blockSize net (coveringBlocks cfg.blockSize offset n) h [] =
        some (h₁, u) ∧
      purgeStep cfg.blockSize h₁ ((offset / cfg.blockSize) * cfg.blockSize) = some h₂ ∧
      prefetchLoop cfg.blockSize net
        (((offset + n + cfg.blockSize - 1) / cfg.blockSize - 1) * cfg.blockSize)
        (List.range cfg.prefetchBlocks) h₂ = some h₃ ∧
      h₃.size = h.size ∧ h₃.numBlocks = h.numBlocks ∧
      pfRead cfg net h offset n =
        (match gatherLoop cfg.blockSize h₃ (coveringBlocks cfg.blockSize offset n) [] with
          | .oobG => (.oobR, h₃)
          | .missing => (.failure h₃.lastErr, h₃)
          | .got bufs =>
            (.success (assemble
              (headTrim (offset - (offset / cfg.blockSize) * cfg.blockSize)
                (tailCut cfg.blockSize (offset - (offset / cfg.blockSize) * cfg.blockSize)
                  n bufs))), h₃)) := by
  set bs := cfg.blockSize with hbsdef
  have hinr : ∀ o ∈ coveringBlocks bs offset n, o / bs < h.numBlocks :=
    cov_in_range hbs (hwf ▸ hbound)
  obtain ⟨rest, hcons⟩ := @coveringBlocks_cons bs offset n hbs hn
  obtain ⟨h₁, u, hlaunch⟩ := @launchLoop_isSome bs net (coveringBlocks bs offset n) h [] hinr
  obtain ⟨hsz₁, hnb₁⟩ := launchLoop_meta hlaunch
  have hfo : (offset / bs) * bs / bs = offset / bs := Nat.mul_div_cancel _ hbs
  have hf : offset / bs < h.numBlocks := by
    have hmem := hinr ((offset / bs) * bs) (by rw [hcons]; exact List.mem_cons_self _ _)
    rwa [hfo] at hmem
  have hpu : (offset / bs) * bs / bs - 1 < h₁.numBlocks := by
    rw [hfo, hnb₁]
    generalize offset / bs = q at hf ⊢
    omega
  obtain ⟨h₂, hpurge⟩ := purgeStep_isSome hpu
  obtain ⟨hsz₂, hnb₂, _, _⟩ := purgeStep_meta hpurge
  have hwf₂ : h₂.numBlocks = h₂.size / bs + 1 := by rw [hsz₂, hnb₂, hsz₁, hnb₁]; exact hwf
  obtain ⟨h₃, hprefetch, hsz₃, hnb₃, _⟩ :=
    @prefetchLoop_spec bs net (((offset + n + bs - 1) / bs - 1) * bs) hbs
      (List.range cfg.prefetchBlocks) h₂ hwf₂
  refine ⟨h₁, u, h₂, h₃, hlaunch, hpurge, hprefetch,
    by rw [hsz₃, hsz₂, hsz₁], by rw [hnb₃, hnb₂, hnb₁], ?_⟩
  have hnotend : ¬ h.size ≤ offset := by omega
  have hlast : ∀ (p : (offset / bs) * bs :: rest ≠ []),
      ((offset / bs) * bs :: rest).getLast p =
        ((offset + n + bs - 1) / bs - 1) * bs := by
    intro p
    have hne : coveringBlocks bs offset n ≠ [] := by rw [hcons]; exact p
    have hv := coveringBlocks_getLast hbs hn hne
    have hq1 := List.getLast?_eq_getLast _ p
    have hq2 : ((offset / bs) * bs :: rest).getLast? =
        some ((coveringBlocks bs offset n).getLast hne) := by
      rw [← hcons]; exact List.getLast?_eq_getLast _ hne
    rw [hq1, Option.some.injEq] at hq2
    rw [hq2]; exact hv
  rw [pfRead, if_neg hnotend]
  simp only [← hbsdef]
  rw [hcons] at hlaunch
  simp only [hcons, hlaunch, hlast, hpurge, hprefetch]

/-! ### Length of the assembled result under canonical content -/

/-- Where the end of the request falls relative to the last covering
block: either the request ends exactly on a block boundary (`cut = 0`,
and the end of the covering range is the request end), or the positive
cut point sits inside the last covering block. -/
theorem covEnd_mod (bs offset n : Nat) (hbs : 0 < bs) (hn : 1 ≤ n) :
    ((offset + n) % bs = 0 ∧ ((offset + n + bs - 1) / bs) * bs = offset + n) ∨
    (0 < (offset + n) % bs ∧
      ((offset + n + bs - 1) / bs - 1) * bs + (offset + n) % bs = offset + n) := by
  obtain ⟨e, he_def⟩ : ∃ e, (offset + n + bs - 1) / bs = e := ⟨_, rfl⟩
  obtain ⟨sE, hsE_lt, hsE⟩ : ∃ s, s < bs ∧ offset + n + bs - 1 = bs * e + s :=
    ⟨(offset + n + bs - 1) % bs, Nat.mod_lt _ hbs, by
      rw [← he_def]; exact (Nat.div_add_mod _ _).symm⟩
  obtain ⟨m, hm_def⟩ : ∃ m, (offset + n) / bs = m := ⟨_, rfl⟩
  obtain ⟨cut, hcut_def⟩ : ∃ c, (offset + n) % bs = c := ⟨_, rfl⟩
  have hdm : bs * m + cut = offset + n := by
    rw [← hm_def, ← hcut_def]; exact Nat.div_add_mod _ _
  have hmm : cut < bs := by rw [← hcut_def]; exact Nat.mod_lt _ hbs
  rw [he_def, hcut_def]
  have hcE : bs * e = e * bs := Nat.mul_comm _ _
  have hcm : bs * m = m * bs := Nat.mul_comm _ _
  have he1 : offset + n ≤ e * bs := by omega
  have he2 : e * bs < offset + n + bs := by omega
  rcases Nat.eq_zero_or_pos cut with hc0 | hcpos
  · left
    refine ⟨hc0, ?_⟩
    have hlow : m * bs ≤ e * bs := by omega
    have hhigh : e * bs < (m + 1) * bs := by
      have : (m + 1) * bs = m * bs + bs := by ring
      omega
    have hme : m ≤ e := Nat.le_of_mul_le_mul_right hlow hbs
    have hem : e < m + 1 := (Nat.mul_lt_mul_right hbs).mp hhigh
    have : e = m := by omega
    rw [this]; omega
  · right
    refine ⟨hcpos, ?_⟩
    have hlow : m * bs < e * bs := by omega
    have hhigh : e * bs < (m + 2) * bs := by
      have : (m + 2) * bs = m * bs + bs + bs := by ring
      omega
    have hme : m < e := (Nat.mul_lt_mul_right hbs).mp hlow
    have hem : e < m + 2 := (Nat.mul_lt_mul_right hbs).mp hhigh
    have hee : e - 1 = m := by omega
    rw [hee]; omega

/-- Length of the assembled, trimmed read result when every covering
block holds its canonical content: exactly `min n (size - offset)`
bytes. -/
theorem trimmedLen (bs size offset n : Nat) (hbs : 0 < bs) (hoff : offset < size)
    (hn : 1 ≤ n) :
    (assemble (headTrim (offset - offset / bs * bs)
      (tailCut bs (offset - offset / bs * bs) n
        ((List.range' (offset / bs) ((offset + n + bs - 1) / bs - offset / bs)).map
          (fun b => canonBlock bs size b))))).length = min n (size - offset) := by
  have hfe := @covEnd_pos bs offset n hbs hn
  have hcov := covEnd_mod bs offset n hbs hn
  obtain ⟨f, hf_def⟩ : ∃ f, offset / bs = f := ⟨_, rfl⟩
  obtain ⟨e, he_def⟩ : ∃ e, (offset + n + bs - 1) / bs = e := ⟨_, rfl⟩
  rw [hf_def, he_def] at hfe ⊢
  rw [he_def] at hcov
  obtain ⟨r, hr_lt, hr⟩ : ∃ r, r < bs ∧ offset = f * bs + r := by
    refine ⟨offset % bs, Nat.mod_lt _ hbs, ?_⟩
    have hd := Nat.div_add_mod offset bs
    rw [hf_def] at hd
    have hc : bs * f = f * bs := Nat.mul_comm _ _
    omega
  have hbo : offset - f * bs = r := by omega
  rw [hbo]
  have hmod : (r + n) % bs = (offset + n) % bs := by
    have h9 : offset + n = r + n + bs * f := by
      have hc : bs * f = f * bs := Nat.mul_comm _ _
      omega
    conv_rhs => rw [h9, Nat.add_mul_mod_self_left]
  obtain ⟨cut, hcut_def⟩ : ∃ c, (offset + n) % bs = c := ⟨_, rfl⟩
  rw [hcut_def] at hmod hcov
  have hcut_lt : cut < bs := by rw [← hcut_def]; exact Nat.mod_lt _ hbs
  rcases Nat.lt_or_ge (e - f) 2 with hk1 | hk2
  · -- a single covering block
    have hef : e = f + 1 := by omega
    have hEfb : e * bs = f * bs + bs := by rw [hef]; ring
    rw [show e - f = 1 from by omega]
    rw [show List.range' f 1 = [f] from rfl]
    simp only [List.map_cons, List.map_nil]
    simp only [tailCut, hmod]
    rcases hcov with ⟨hc0, hE⟩ | ⟨hcpos, hL⟩
    · rw [if_neg (by omega)]
      simp only [headTrim]
      split_ifs with hrpos
      · show (((canonBlock bs size f).drop r)).length = _
        rw [List.length_drop, canonBlock_length]
        generalize hP : f * bs = P at *
        omega
      · show ((canonBlock bs size f)).length = _
        rw [canonBlock_length]
        generalize hP : f * bs = P at *
        omega
    · rw [if_pos hcpos]
      have hLf : (e - 1) * bs = f * bs := by rw [hef]; simp
      rw [hLf] at hL
      simp only [setLast]
      split_ifs with htrim
      · rw [canonBlock_length] at htrim
        simp only [headTrim]
        split_ifs with hrpos
        · show (((canonBlock bs size f).take cut).drop r).length = _
          rw [List.length_drop, List.length_take, canonBlock_length]
          generalize hP : f * bs = P at *
          omega
        · show (((canonBlock bs size f).take cut)).length = _
          rw [List.length_take, canonBlock_length]
          generalize hP : f * bs = P at *
          omega
      · rw [canonBlock_length] at htrim
        simp only [headTrim]
        split_ifs with hrpos
        · show (((canonBlock bs size f)).drop r).length = _
          rw [List.length_drop, canonBlock_length]
          generalize hP : f * bs = P at *
          omega
        · show ((canonBlock bs size f)).length = _
          rw [canonBlock_length]
          generalize hP : f * bs = P at *
          omega
  · -- at least two covering blocks
    obtain ⟨K, hK⟩ : ∃ K, e - f = K + 1 + 1 := ⟨e - f - 2, by omega⟩
    rw [hK, List.range'_concat, List.range'_succ, List.map_append, List.map_cons,
      List.map_cons, List.map_nil]
    have hl_idx : f + 1 * (K + 1) = e - 1 := by omega
    rw [hl_idx]
    have hfk : f + 1 + K = e - 1 := by omega
    have hq1 : (f + 1) * bs = f * bs + bs := by ring
    have hq2 : (e - 1) * bs + bs = e * bs := by
      have h9 : e - 1 + 1 = e := by omega
      calc (e - 1) * bs + bs = (e - 1 + 1) * bs := by ring
        _ = e * bs := by rw [h9]
    have hQL : (f + 1) * bs ≤ (e - 1) * bs := Nat.mul_le_mul_right bs (by omega)
    have hmid : ∀ K' f', ((List.range' f' K').map (fun b => canonBlock bs size b)).map
        List.length = (List.range' f' K').map (fun b => min bs (size - b * bs)) := by
      intro K' f'
      rw [List.map_map]
      exact List.map_congr_left (fun b _ => canonBlock_length bs size b)
    simp only [tailCut, hmod]
    rcases hcov with ⟨hc0, hE⟩ | ⟨hcpos, hL⟩
    · rw [if_neg (by omega), List.cons_append]
      simp only [headTrim]
      split_ifs with hrpos
      · rw [assemble_length]
        simp only [List.map_cons, List.map_append, List.sum_cons, List.sum_append,
          List.map_nil, List.sum_nil, List.length_drop, canonBlock_length, hmid,
          sum_canonLens bs size K (f + 1), hfk]
        generalize hP : f * bs = P at *
        generalize hQ : (f + 1) * bs = Q at *
        generalize hLL : (e - 1) * bs = L at *
        generalize hE2 : e * bs = E at *
        omega
      · rw [assemble_length]
        simp only [List.map_cons, List.map_append, List.sum_cons, List.sum_append,
          List.map_nil, List.sum_nil, canonBlock_length, hmid,
          sum_canonLens bs size K (f + 1), hfk]
        generalize hP : f * bs = P at *
        generalize hQ : (f + 1) * bs = Q at *
        generalize hLL : (e - 1) * bs = L at *
        generalize hE2 : e * bs = E at *
        omega
    · rw [if_pos hcpos, setLast_append, List.cons_append]
      simp only [headTrim]
      split_ifs with hrpos htA htB
      · rw [canonBlock_length] at htA
        rw [assemble_length]
        simp only [List.map_cons, List.map_append, List.sum_cons, List.sum_append,
          List.map_nil, List.sum_nil, List.length_drop, List.length_take,
          canonBlock_length, hmid, sum_canonLens bs size K (f + 1), hfk]
        generalize hP : f * bs = P at *
        generalize hQ : (f + 1) * bs = Q at *
        generalize hLL : (e - 1) * bs = L at *
        generalize hE2 : e * bs = E at *
        omega
      · rw [canonBlock_length] at htA
        rw [assemble_length]
        simp only [List.map_cons, List.map_append, List.sum_cons, List.sum_append,
          List.map_nil, List.sum_nil, List.length_drop, List.length_take,
          canonBlock_length, hmid, sum_canonLens bs size K (f + 1), hfk]
        generalize hP : f * bs = P at *
        generalize hQ : (f + 1) * bs = Q at *
        generalize hLL : (e - 1) * bs = L at *
        generalize hE2 : e * bs = E at *
        omega
      · rw [canonBlock_length] at htB
        rw [assemble_length]
        simp only [List.map_cons, List.map_append, List.sum_cons, List.sum_append,
          List.map_nil, List.sum_nil, List.length_drop, List.length_take,
          canonBlock_length, hmid, sum_canonLens bs size K (f + 1), hfk]
        generalize hP : f * bs = P at *
        generalize hQ : (f + 1) * bs = Q at *
        generalize hLL : (e - 1) * bs = L at *
        generalize hE2 : e * bs = E at *
        omega
      · rw [canonBlock_length] at htB
        rw [assemble_length]
        simp only [List.map_cons, List.map_append, List.sum_cons, List.sum_append,
          List.map_nil, List.sum_nil, List.length_drop, List.length_take,
          canonBlock_length, hmid, sum_canonLens bs size K (f + 1), hfk]
        generalize hP : f * bs = P at *
        generalize hQ : (f + 1) * bs = Q at *
        generalize hLL : (e - 1) * bs = L at *
        generalize hE2 : e * bs = E at *
        omega

/-! ### The launch loop under canonical content -/

theorem fetchStep_success {bs : Nat} {net : Nat → Option Buf} {h : Handle} {o : Nat}
    {buf : Buf} (hno : net o = some buf) :
    (fetchStep bs net h o).cache (o / bs) = some buf := by
  unfold fetchStep; rw [hno]; simp

/-- Purge preserves every slot other than the (guard-protected) purge
target. -/
theorem purgeStep_keep {bs : Nat} {h : Handle} {firstO : Nat} {h₂ : Handle}
    (heq : purgeStep bs h firstO = some h₂) (j : Nat)
    (hj : 0 < firstO / bs - 1 → j ≠ firstO / bs - 1) :
    h₂.cache j = h.cache j ∧ h₂.active j = h.active j := by
  unfold purgeStep at heq
  split_ifs at heq with h₁ h₂c <;> (simp only [Option.some.injEq] at heq; rw [← heq])
  · constructor <;> simp [hj h₁]
  · exact ⟨rfl, rfl⟩
  · exact ⟨rfl, rfl⟩

/-- After the launch loop runs with a network oracle that serves `c` for
every needed block, every needed block is cached with its `c`-content,
and every cached slot anywhere still holds its `c`-content. -/
theorem launchLoop_covers {bs : Nat} {net : Nat → Option Buf} (c : Nat → Buf) :
    ∀ {blocks : List Nat} {h : Handle} {u : List Nat} {h' : Handle} {u' : List Nat},
      launchLoop bs net blocks h u = some (h', u') →
      (∀ o ∈ blocks, net o = some (c (o / bs))) →
      (∀ j v, h.cache j = some v → v = c j) →
      (∀ o ∈ blocks, (h.cache (o / bs)).isNone → h.active (o / bs) = false) →
      (∀ o ∈ blocks, h'.cache (o / bs) = some (c (o / bs))) ∧
      (∀ j v, h'.cache j = some v → v = c j)
  | [], h, u, h', u', heq => by
    simp only [launchLoop, Option.some.injEq, Prod.mk.injEq] at heq
    rw [← heq.1]
    exact fun _ hc _ => ⟨fun o ho => absurd ho (List.not_mem_nil o), hc⟩
  | o :: rest, h, u, h', u', heq => by
    intro hnet hcanon hfet
    have hneto : net o = some (c (o / bs)) := hnet o (List.mem_cons_self o rest)
    simp only [launchLoop] at heq
    split_ifs at heq with h₁ h₂ h₃
    · -- empty slot but a marker already exists: excluded by `hfet`
      exact absurd h₃ (by rw [hfet o (List.mem_cons_self o rest) h₂]; simp)
    · -- fetch launched and (sequentially) completed with `c`
      have hself : (fetchStep bs net h o).cache (o / bs) = some (c (o / bs)) :=
        fetchStep_success hneto
      have hcanon' : ∀ j v, (fetchStep bs net h o).cache j = some v → v = c j := by
        intro j v hv
        rcases eq_or_ne j (o / bs) with rfl | hj
        · rw [hself] at hv; cases hv; rfl
        · rw [fetchStep_cache_ne hj] at hv; exact hcanon j v hv
      have hfet' : ∀ o' ∈ rest, ((fetchStep bs net h o).cache (o' / bs)).isNone →
          (fetchStep bs net h o).active (o' / bs) = false := by
        intro o' ho' hn'
        rcases eq_or_ne (o' / bs) (o / bs) with he | hj
        · rw [he, hself] at hn'; cases hn'
        · rw [fetchStep_active_ne hj]
          rw [fetchStep_cache_ne hj] at hn'
          exact hfet o' (List.mem_cons_of_mem o ho') hn'
      obtain ⟨hcov, hinv⟩ := launchLoop_covers c heq
        (fun o' ho' => hnet o' (List.mem_cons_of_mem o ho')) hcanon' hfet'
      refine ⟨fun o' ho' => ?_, hinv⟩
      rcases List.mem_cons.mp ho' with rfl | ho'
      · exact launchLoop_mono heq _ _ hself
      · exact hcov o' ho'
    · -- already cached: its content is `c` by the invariant
      have hv : ∃ v, h.cache (o / bs) = some v := by
        rcases hcv : h.cache (o / bs) with _ | v
        · rw [hcv] at h₂; simp at h₂
        · exact ⟨v, rfl⟩
      obtain ⟨v, hveq⟩ := hv
      have hvc : v = c (o / bs) := hcanon _ _ hveq
      obtain ⟨hcov, hinv⟩ := launchLoop_covers c heq
        (fun o' ho' => hnet o' (List.mem_cons_of_mem o ho')) hcanon
        (fun o' ho' => hfet o' (List.mem_cons_of_mem o ho'))
      refine ⟨fun o' ho' => ?_, hinv⟩
      rcases List.mem_cons.mp ho' with rfl | ho'
      · rw [launchLoop_mono heq _ _ hveq, hvc]
      · exact hcov o' ho'

/-- `n` is at most `n` rounded up to the next multiple of `bs`. -/
theorem le_roundUp (n bs : Nat) (hbs : 0 < bs) : n ≤ ((n + bs - 1) / bs) * bs := by
  have hd := Nat.div_add_mod (n + bs - 1) bs
  have hm := Nat.mod_lt (n + bs - 1) hbs
  have hc : bs * ((n + bs - 1) / bs) = ((n + bs - 1) / bs) * bs := Nat.mul_comm _ _
  omega

/-- The byte-count bounds of `Read` on in-range requests with canonical
content: the result has exactly `min n (size - offset)` bytes, hence at
most `n` rounded up to the next block boundary and at least
`min n (size - offset)`. -/
theorem read_bytes_bounds (cfg : Fetcher) (h : Handle) (offset n : Nat)
    (hbs : 0 < cfg.blockSize)
    (hwf : h.numBlocks = h.size / cfg.blockSize + 1)
    (hoff : offset < h.size) (hn : 1 ≤ n)
    (hbound : offset + n ≤ h.numBlocks * cfg.blockSize)
    (hcanon : ∀ j v, h.cache j = some v → v = canonBlock cfg.blockSize h.size j)
    (hfetchable : ∀ o ∈ coveringBlocks cfg.blockSize offset n,
      (h.cache (o / cfg.blockSize)).isNone → h.active (o / cfg.blockSize) = false) :
    ∃ data, (pfRead cfg (canonNet cfg.blockSize h.size) h offset n).1 = .success data ∧
      data.length = min n (h.size - offset) := by
  set bs := cfg.blockSize with hbsdef
  obtain ⟨h₁, u, h₂, h₃, hlaunch, hpurge, hprefetch, hsz₃, hnb₃, hread⟩ :=
    pfRead_pipeline cfg (canonNet bs h.size) h offset n hbs hwf hoff hn hbound
  have hnet : ∀ o ∈ coveringBlocks bs offset n,
      canonNet bs h.size o = some (canonBlock bs h.size (o / bs)) := by
    intro o ho
    rcases mem_coveringBlocks ho with ⟨i, rfl, _, _⟩
    exact canonNet_block hbs
  obtain ⟨hcov₁, hinv₁⟩ :=
    launchLoop_covers (canonBlock bs h.size) hlaunch hnet hcanon hfetchable
  have hfo : (offset / bs) * bs / bs = offset / bs := Nat.mul_div_cancel _ hbs
  have hcov₂ : ∀ o ∈ coveringBlocks bs offset n,
      h₂.cache (o / bs) = some (canonBlock bs h.size (o / bs)) := by
    intro o ho
    have hne : 0 < (offset / bs) * bs / bs - 1 → o / bs ≠ (offset / bs) * bs / bs - 1 := by
      rw [hfo]
      intro hpos
      have := (coveringBlocks_idx_lt hbs ho).1
      omega
    rw [(purgeStep_keep hpurge _ hne).1]
    exact hcov₁ o ho
  obtain ⟨hsz₁, hnb₁⟩ := launchLoop_meta hlaunch
  obtain ⟨hsz₂, hnb₂, _, _⟩ := purgeStep_meta hpurge
  have hwf₂ : h₂.numBlocks = h₂.size / bs + 1 := by rw [hsz₂, hnb₂, hsz₁, hnb₁]; exact hwf
  obtain ⟨h₃', heq', _, _, htouch⟩ :=
    @prefetchLoop_spec bs (canonNet bs h.size) (((offset + n + bs - 1) / bs - 1) * bs) hbs
      (List.range cfg.prefetchBlocks) h₂ hwf₂
  rw [hprefetch, Option.some.injEq] at heq'
  subst heq'
  have hlastdiv : ((offset + n + bs - 1) / bs - 1) * bs / bs =
      (offset + n + bs - 1) / bs - 1 := Nat.mul_div_cancel _ hbs
  have hfe := @covEnd_pos bs offset n hbs hn
  have hcov₃ : ∀ o ∈ coveringBlocks bs offset n,
      h₃.cache (o / bs) = some (canonBlock bs h.size (o / bs)) := by
    intro o ho
    have hidx := (coveringBlocks_idx_lt hbs ho).2
    have hkeep : h₃.cache (o / bs) = h₂.cache (o / bs) := by
      by_contra hne
      obtain ⟨i, _, hbeq, _⟩ := htouch (o / bs) (Or.inr (Or.inl hne))
      rw [hlastdiv] at hbeq
      omega
    rw [hkeep]
    exact hcov₂ o ho
  have hin3 : ∀ o ∈ coveringBlocks bs offset n, o / bs < h₃.numBlocks := by
    rw [hnb₃]
    exact cov_in_range hbs hbound
  have hgather := @gatherLoop_got bs h₃ (canonBlock bs h.size)
    (coveringBlocks bs offset n) []
    (fun o ho => ⟨hin3 o ho, hcov₃ o ho⟩)
  have hmap : (coveringBlocks bs offset n).map (fun o => canonBlock bs h.size (o / bs)) =
      (List.range' (offset / bs) ((offset + n + bs - 1) / bs - offset / bs)).map
        (fun b => canonBlock bs h.size b) := by
    unfold coveringBlocks
    rw [List.map_map]
    exact List.map_congr_left (fun b _ => by
      simp [Function.comp, Nat.mul_div_cancel _ hbs])
  rw [List.nil_append, hmap] at hgather
  have hval : pfRead cfg (canonNet bs h.size) h offset n =
      (.success (assemble (headTrim (offset - (offset / bs) * bs)
        (tailCut bs (offset - (offset / bs) * bs) n
          ((List.range' (offset / bs) ((offset + n + bs - 1) / bs - offset / bs)).map
            (fun b => canonBlock bs h.size b))))), h₃) := by
    rw [hread, hgather]
  have hboeq : offset - (offset / bs) * bs = offset - offset / bs * bs := rfl
  have hlen := trimmedLen bs h.size offset n hbs hoff hn
  exact ⟨_, by rw [hval], hlen⟩

/-! ### Further small helpers -/

theorem fetchStep_fail_cache {bs : Nat} {net : Nat → Option Buf} {h : Handle} {o : Nat}
    (hno : net o = none) : (fetchStep bs net h o).cache = h.cache := by
  unfold fetchStep; rw [hno]

theorem fetchStep_fail_lastErr {bs : Nat} {net : Nat → Option Buf} {h : Handle} {o : Nat}
    (hno : net o = none) : (fetchStep bs net h o).lastErr = some .fetchFailed := by
  unfold fetchStep; rw [hno]

/-- The launch loop on a single uncached, unmarked block: one fetch is
launched. -/
theorem launchLoop_single_fetch {bs : Nat} {net : Nat → Option Buf} {h : Handle} {b : Nat}
    (hbs : 0 < bs) (hbin : b < h.numBlocks) (hc : h.cache b = none)
    (ha : h.active b = false) :
    launchLoop bs net [b * bs] h [] = some (fetchStep bs net h (b * bs), [b]) := by
  have hdb : b * bs / bs = b := Nat.mul_div_cancel _ hbs
  simp only [launchLoop, hdb, hbin, if_true, hc, Option.isNone_none, ha, List.nil_append]
  rfl

/-- The launch loop on a single uncached block whose marker is already
present: no fetch, the marker joins the wait list. -/
theorem launchLoop_single_skip {bs : Nat} {net : Nat → Option Buf} {h : Handle} {b : Nat}
    (hbs : 0 < bs) (hbin : b < h.numBlocks) (hc : h.cache b = none)
    (ha : h.active b = true) :
    launchLoop bs net [b * bs] h [] = some (h, [b]) := by
  have hdb : b * bs / bs = b := Nat.mul_div_cancel _ hbs
  simp only [launchLoop, hdb, hbin, if_true, hc, Option.isNone_none, ha, List.nil_append]

/-- Everything in the final wait list either was already waited on or is
a needed block: a `Read` never waits on a prefetch marker. -/
theorem launchLoop_waitlist {bs : Nat} {net : Nat → Option Buf} :
    ∀ {blocks : List Nat} {h : Handle} {u : List Nat} {h' : Handle} {u' : List Nat},
      launchLoop bs net blocks h u = some (h', u') →
      ∀ b ∈ u', b ∈ u ∨ b ∈ blocks.map (· / bs)
  | [], h, u, h', u', heq => by
    simp only [launchLoop, Option.some.injEq, Prod.mk.injEq] at heq
    rw [← heq.2]
    exact fun b hb => Or.inl hb
  | o :: rest, h, u, h', u', heq => by
    intro b hb
    simp only [launchLoop] at heq
    have hstep : ∀ (hh : Handle), launchLoop bs net rest hh (u ++ [o / bs]) = some (h', u') →
        b ∈ u ∨ b ∈ (o :: rest).map (· / bs) := by
      intro hh heq'
      rcases launchLoop_waitlist heq' b hb with hu | hr
      · rcases List.mem_append.mp hu with hu | hsing
        · exact Or.inl hu
        · rcases List.mem_singleton.mp hsing with rfl
          exact Or.inr (by simp)
      · exact Or.inr (by simp only [List.map_cons]; exact List.mem_cons_of_mem _ hr)
    split_ifs at heq with h₁ h₂ h₃
    · exact hstep h heq
    · exact hstep (fetchStep bs net h o) heq
    · rcases launchLoop_waitlist heq b hb with hu | hr
      · exact Or.inl hu
      · exact Or.inr (by simp only [List.map_cons]; exact List.mem_cons_of_mem _ hr)

/-- `bufs[0] = bufs[0][bo:]` slices off `offset % blockSize` bytes:
the block-offset arithmetic of `Read`. -/
theorem bo_eq_mod (offset bs : Nat) (hbs : 0 < bs) :
    offset - offset / bs * bs = offset % bs := by
  have hd := Nat.div_add_mod offset bs
  have hc : bs * (offset / bs) = offset / bs * bs := Nat.mul_comm _ _
  omega

theorem mod_add_left_mod (offset n bs : Nat) :
    (offset % bs + n) % bs = (offset + n) % bs := by
  conv_lhs => rw [Nat.add_mod]
  conv_rhs => rw [Nat.add_mod]
  rw [Nat.mod_mod_of_dvd _ dvd_rfl]

/-- A `setLast` that changes its input changes exactly the last
element. -/
theorem setLast_ne {g : Buf → Buf} :
    ∀ {bufs : List Buf}, setLast g bufs ≠ bufs →
      ∃ last, bufs.getLast? = some last ∧ g last ≠ last
  | [], hne => absurd rfl hne
  | [b], hne => by
    refine ⟨b, rfl, fun hg => hne ?_⟩
    show [g b] = [b]
    rw [hg]
  | b :: c :: rest, hne => by
    have hne' : setLast g (c :: rest) ≠ c :: rest := by
      intro hcc
      exact hne (by show b :: setLast g (c :: rest) = _; rw [hcc])
    obtain ⟨last, hl, hg⟩ := setLast_ne hne'
    exact ⟨last, by rw [List.getLast?_cons_cons]; exact hl, hg⟩

/-- Rounding-up division versus floor division. -/
theorem ceilDiv_cases (size bs : Nat) (hbs : 0 < bs) :
    (bs ∣ size → (size + bs - 1) / bs = size / bs) ∧
    (¬ bs ∣ size → (size + bs - 1) / bs = size / bs + 1) := by
  obtain ⟨q, hq⟩ : ∃ q, size / bs = q := ⟨_, rfl⟩
  obtain ⟨r, hr_lt, hr⟩ : ∃ r, r < bs ∧ size = bs * q + r :=
    ⟨size % bs, Nat.mod_lt _ hbs, by rw [← hq]; exact (Nat.div_add_mod _ _).symm⟩
  have hdvd : bs ∣ size ↔ r = 0 := by
    constructor
    · intro ⟨c, hc⟩
      have h1 : size % bs = 0 := by rw [hc]; exact Nat.mul_mod_right _ _
      have h2 : size % bs = r := by
        rw [hr, Nat.add_mod, Nat.mul_mod_right]
        simp [Nat.mod_eq_of_lt hr_lt]
      omega
    · intro hr0
      exact ⟨q, by omega⟩
  rw [hq]
  constructor
  · intro hd
    have hr0 : r = 0 := hdvd.mp hd
    have : size + bs - 1 = bs * q + (bs - 1) := by omega
    rw [this, Nat.mul_add_div hbs, Nat.div_eq_of_lt (by omega)]
    omega
  · intro hd
    have hr0 : 0 < r := by
      rcases Nat.eq_zero_or_pos r with h0 | h0
      · exact absurd (hdvd.mpr h0) hd
      · exact h0
    have : size + bs - 1 = bs * (q + 1) + (r - 1) := by
      have : bs * (q + 1) = bs * q + bs := by ring
      omega
    rw [this, Nat.mul_add_div hbs, Nat.div_eq_of_lt (by omega)]

/-! ### The single-flight invariant is preserved -/

theorem launchC_inv {bs : Nat} {s : CState} {o : Nat}
    (hc : s.cache (o / bs) = none) (hm : s.marker (o / bs) = .absent)
    (hinv : InvC s) : InvC (launchC bs s o) := by
  intro b
  obtain ⟨h1, h2⟩ := hinv b
  rcases eq_or_ne b (o / bs) with rfl | hb
  · constructor
    · simp only [launchC, if_pos rfl]
      rw [hm] at h1
      simp only [reduceCtorEq, if_false] at h1
      simp [h1]
    · intro _
      exact hc
  · constructor
    · simp only [launchC, if_neg hb]
      exact h1
    · intro hmk
      simp only [launchC, if_neg hb] at hmk
      exact h2 hmk

theorem needLoop_inv {bs : Nat} :
    ∀ (blocks : List Nat) (s : CState), InvC s → InvC (needLoop bs blocks s)
  | [], s, hinv => hinv
  | o :: rest, s, hinv => by
    simp only [needLoop]
    split_ifs with h1 h2
    · exact needLoop_inv rest _ (launchC_inv (Option.isNone_iff_eq_none.mp h1) h2 hinv)
    · exact needLoop_inv rest s hinv
    · exact needLoop_inv rest s hinv

theorem purgeC_inv {bs : Nat} {s : CState} (firstO : Nat) (hinv : InvC s) :
    InvC (purgeC bs s firstO) := by
  unfold purgeC
  split_ifs with h1 h2
  · intro b
    obtain ⟨p1, p2⟩ := hinv b
    rcases eq_or_ne b (firstO / bs - 1) with rfl | hb
    · constructor
      · simp only [if_pos rfl]
        have hmne : s.marker (firstO / bs - 1) ≠ .inFlight := by
          intro hmk
          rw [p2 hmk] at h2
          simp at h2
        rw [p1, if_neg hmne]
        simp
      · intro hmk
        simp only [if_pos rfl] at hmk
        cases hmk
    · exact ⟨by simp only [if_neg hb]; exact p1,
        fun hmk => by
          simp only [if_neg hb] at hmk ⊢
          exact p2 hmk⟩
  · exact hinv
  · exact hinv

theorem prefetchC_inv {bs : Nat} {lastO : Nat} (hbs : 0 < bs) :
    ∀ (is : List Nat) (s : CState), InvC s → InvC (prefetchC bs s lastO is)
  | [], s, hinv => hinv
  | i :: rest, s, hinv => by
    simp only [prefetchC]
    split_ifs with h1 h2
    · refine prefetchC_inv hbs rest _ (launchC_inv ?_ ?_ hinv)
      · rw [Nat.mul_div_cancel _ hbs]
        exact Option.isNone_iff_eq_none.mp h2.1
      · rw [Nat.mul_div_cancel _ hbs]
        exact h2.2
    · exact prefetchC_inv hbs rest s hinv
    · exact prefetchC_inv hbs rest s hinv

theorem completeC_inv {s : CState} {b₀ : Nat} {res : Option Buf}
    (hrun : s.marker b₀ = .inFlight) (hinv : InvC s) : InvC (completeC s b₀ res) := by
  intro b
  obtain ⟨p1, p2⟩ := hinv b
  rcases eq_or_ne b b₀ with rfl | hb
  · have hone : s.running b = 1 := by rw [p1, if_pos hrun]
    cases res <;>
      exact ⟨by simp only [completeC, if_pos rfl, hone]; simp,
        fun hmk => by simp only [completeC, if_pos rfl] at hmk; cases hmk⟩
  · cases res <;>
      exact ⟨by simp only [completeC, if_neg hb]; exact p1,
        fun hmk => by
          simp only [completeC, if_neg hb] at hmk ⊢
          exact p2 hmk⟩

theorem readStepC_inv (cfg : Fetcher) (s : CState) (offset n : Nat)
    (hbs : 0 < cfg.blockSize) (hinv : InvC s) :
    InvC (readStepC cfg s offset n) := by
  simp only [readStepC]
  split_ifs with h1
  · exact hinv
  · rcases hcov : coveringBlocks cfg.blockSize offset n with _ | ⟨o₀, rest⟩
    · simp only [hcov]
      exact hinv
    · simp only [hcov]
      exact prefetchC_inv hbs _ _ (purgeC_inv _ (needLoop_inv _ _ hinv))

theorem CStep_inv {cfg : Fetcher} {s s' : CState} (hstep : CStep cfg s s')
    (hinv : InvC s) : InvC s' := by
  cases hstep with
  | read offset n hbs hn hin => exact readStepC_inv cfg s offset n hbs hinv
  | complete b res hrun => exact completeC_inv hrun hinv

theorem CReach_inv {cfg : Fetcher} {s₀ s : CState} (hinv : InvC s₀)
    (hreach : CReach cfg s₀ s) : InvC s := by
  induction hreach with
  | refl => exact hinv
  | tail _ hstep ih => exact CStep_inv hstep ih

/-! ### Exactly one fetch per block across concurrent reads -/

theorem needLoop_size {bs : Nat} :
    ∀ (blocks : List Nat) (s : CState), (needLoop bs blocks s).size = s.size
  | [], s => rfl
  | o :: rest, s => by
    simp only [needLoop]
    split_ifs with h1 h2
    · rw [needLoop_size rest _]; rfl
    · exact needLoop_size rest s
    · exact needLoop_size rest s

theorem purgeC_size {bs : Nat} (s : CState) (firstO : Nat) :
    (purgeC bs s firstO).size = s.size := by
  unfold purgeC
  split_ifs <;> rfl

theorem prefetchC_size {bs lastO : Nat} :
    ∀ (is : List Nat) (s : CState), (prefetchC bs s lastO is).size = s.size
  | [], s => rfl
  | i :: rest, s => by
    simp only [prefetchC]
    split_ifs with h1 h2
    · rw [prefetchC_size rest _]; rfl
    · exact prefetchC_size rest s
    · exact prefetchC_size rest s

theorem readStepC_size (cfg : Fetcher) (s : CState) (offset n : Nat) :
    (readStepC cfg s offset n).size = s.size := by
  simp only [readStepC]
  split_ifs with h1
  · rfl
  · rcases hcov : coveringBlocks cfg.blockSize offset n with _ | ⟨o₀, rest⟩
    · simp only [hcov]
    · simp only [hcov]
      rw [prefetchC_size, purgeC_size, needLoop_size]

/-- A block with a closed-or-open marker and empty slot is left alone by
the launch loop: no second fetch. -/
theorem needLoop_skip {bs : Nat} :
    ∀ (blocks : List Nat) (s : CState) (b : Nat),
      s.cache b = none → s.marker b = .inFlight →
      (needLoop bs blocks s).cache b = none ∧
      (needLoop bs blocks s).marker b = .inFlight ∧
      (needLoop bs blocks s).fetchesC b = s.fetchesC b
  | [], s, b, hc, hm => ⟨hc, hm, rfl⟩
  | o :: rest, s, b, hc, hm => by
    simp only [needLoop]
    split_ifs with h1 h2
    · have hne : b ≠ o / bs := fun he => by rw [← he, hm] at h2; cases h2
      have hc' : (launchC bs s o).cache b = none := hc
      have hm' : (launchC bs s o).marker b = .inFlight := by
        simp only [launchC, if_neg hne]; exact hm
      obtain ⟨c2, m2, f2⟩ := needLoop_skip rest _ b hc' hm'
      refine ⟨c2, m2, ?_⟩
      rw [f2]
      simp only [launchC, if_neg hne]
    · exact needLoop_skip rest s b hc hm
    · exact needLoop_skip rest s b hc hm

/-- The launch loop fetches a needed block with empty slot and no marker
exactly once. -/
theorem needLoop_at {bs : Nat} :
    ∀ (blocks : List Nat) (s : CState) (b : Nat),
      b ∈ blocks.map (· / bs) → s.cache b = none → s.marker b = .absent →
      (needLoop bs blocks s).cache b = none ∧
      (needLoop bs blocks s).marker b = .inFlight ∧
      (needLoop bs blocks s).fetchesC b = s.fetchesC b + 1
  | [], s, b, hmem, _, _ => absurd hmem (by simp)
  | o :: rest, s, b, hmem, hc, hm => by
    simp only [needLoop]
    rcases eq_or_ne (o / bs) b with heq | hne
    · rw [if_pos (by rw [heq, hc]; rfl), if_pos (by rw [heq]; exact hm)]
      have hc' : (launchC bs s o).cache b = none := hc
      have hm' : (launchC bs s o).marker b = .inFlight := by
        simp only [launchC, if_pos heq.symm]
      obtain ⟨c2, m2, f2⟩ := needLoop_skip rest _ b hc' hm'
      refine ⟨c2, m2, ?_⟩
      rw [f2]
      simp only [launchC, if_pos heq.symm]
    · have hmem' : b ∈ rest.map (· / bs) := by
        simp only [List.map_cons, List.mem_cons] at hmem
        rcases hmem with hmem | hmem
        · exact absurd hmem.symm hne
        · exact hmem
      split_ifs with h1 h2
      · have hc' : (launchC bs s o).cache b = none := hc
        have hm' : (launchC bs s o).marker b = .absent := by
          simp only [launchC, if_neg (Ne.symm hne)]; exact hm
        obtain ⟨c2, m2, f2⟩ := needLoop_at rest _ b hmem' hc' hm'
        refine ⟨c2, m2, ?_⟩
        rw [f2]
        simp only [launchC, if_neg (Ne.symm hne)]
      · exact needLoop_at rest s b hmem' hc hm
      · exact needLoop_at rest s b hmem' hc hm

/-- Purging never touches an empty slot. -/
theorem purgeC_at {bs : Nat} (s : CState) (firstO b : Nat) (hc : s.cache b = none) :
    (purgeC bs s firstO).cache b = none ∧
    (purgeC bs s firstO).marker b = s.marker b ∧
    (purgeC bs s firstO).fetchesC b = s.fetchesC b := by
  unfold purgeC
  split_ifs with h1 h2
  · rcases eq_or_ne b (firstO / bs - 1) with heq | hne
    · exfalso
      rw [← heq, hc] at h2
      cases h2
    · refine ⟨?_, ?_, rfl⟩
      · show (if b = firstO / bs - 1 then none else s.cache b) = none
        rw [if_neg hne]; exact hc
      · show (if b = firstO / bs - 1 then Marker.absent else s.marker b) = s.marker b
        rw [if_neg hne]
  · exact ⟨hc, rfl, rfl⟩
  · exact ⟨hc, rfl, rfl⟩

/-- Prefetch skips a block that is in flight. -/
theorem prefetchC_at {bs lastO : Nat} (hbs : 0 < bs) :
    ∀ (is : List Nat) (s : CState) (b : Nat),
      s.marker b = .inFlight →
      (prefetchC bs s lastO is).cache b = s.cache b ∧
      (prefetchC bs s lastO is).marker b = .inFlight ∧
      (prefetchC bs s lastO is).fetchesC b = s.fetchesC b
  | [], s, b, hm => ⟨rfl, hm, rfl⟩
  | i :: rest, s, b, hm => by
    simp only [prefetchC]
    split_ifs with h1 h2
    · have hne : b ≠ lastO / bs + 1 + i := fun he => by rw [← he, hm] at h2; cases h2.2
      have hdb : (lastO / bs + 1 + i) * bs / bs = lastO / bs + 1 + i :=
        Nat.mul_div_cancel _ hbs
      have hm' : (launchC bs s ((lastO / bs + 1 + i) * bs)).marker b = .inFlight := by
        simp only [launchC, hdb, if_neg hne]; exact hm
      obtain ⟨c2, m2, f2⟩ := prefetchC_at hbs rest _ b hm'
      refine ⟨?_, m2, ?_⟩
      · rw [c2]; rfl
      · rw [f2]
        simp only [launchC, hdb, if_neg hne]
    · exact prefetchC_at hbs rest s b hm
    · exact prefetchC_at hbs rest s b hm

/-- The atomic bookkeeping step of a `Read` needing block `b` launches
exactly one fetch for `b` when the slot is empty and unmarked. -/
theorem readStepC_fetch_once (cfg : Fetcher) (s : CState) (offset n b : Nat)
    (hbs : 0 < cfg.blockSize) (hn : 1 ≤ n) (hoff : offset < s.size)
    (hmem : b ∈ (coveringBlocks cfg.blockSize offset n).map (· / cfg.blockSize))
    (hc : s.cache b = none) (hm : s.marker b = .absent) :
    (readStepC cfg s offset n).cache b = none ∧
    (readStepC cfg s offset n).marker b = .inFlight ∧
    (readStepC cfg s offset n).fetchesC b = s.fetchesC b + 1 := by
  simp only [readStepC, if_neg (not_le.mpr hoff)]
  obtain ⟨rest, hcov⟩ := @coveringBlocks_cons cfg.blockSize offset n hbs hn
  simp only [hcov]
  obtain ⟨c1, m1, f1⟩ := needLoop_at ((offset / cfg.blockSize) * cfg.blockSize :: rest) s b
    (by rw [← hcov]; exact hmem) hc hm
  obtain ⟨c2, m2, f2⟩ := purgeC_at _ _ b c1
  obtain ⟨c3, m3, f3⟩ := prefetchC_at hbs (List.range cfg.prefetchBlocks) _ b
    (by rw [m2]; exact m1)
  refine ⟨?_, m3, ?_⟩
  · rw [c3, c2]
  · rw [f3, f2, f1]

/-- A `Read` bookkeeping step that finds block `b` empty but already in
flight launches no fetch for `b`. -/
theorem readStepC_no_fetch (cfg : Fetcher) (s : CState) (offset n b : Nat)
    (hbs : 0 < cfg.blockSize) (hc : s.cache b = none) (hm : s.marker b = .inFlight) :
    (readStepC cfg s offset n).cache b = none ∧
    (readStepC cfg s offset n).marker b = .inFlight ∧
    (readStepC cfg s offset n).fetchesC b = s.fetchesC b := by
  simp only [readStepC]
  split_ifs with h1
  · exact ⟨hc, hm, rfl⟩
  · rcases hcov : coveringBlocks cfg.blockSize offset n with _ | ⟨o₀, rest⟩
    · simp only [hcov]
      exact ⟨hc, hm, trivial⟩
    · simp only [hcov]
      obtain ⟨c1, m1, f1⟩ := needLoop_skip (o₀ :: rest) s b hc hm
      obtain ⟨c2, m2, f2⟩ := purgeC_at _ _ b c1
      obtain ⟨c3, m3, f3⟩ := prefetchC_at hbs (List.range cfg.prefetchBlocks) _ b
        (by rw [m2]; exact m1)
      refine ⟨?_, m3, ?_⟩
      · rw [c3, c2]
      · rw [f3, f2, f1]

/-! ## The claims -/

/-- **C1** (corrected).  For `0 ≤ offset < contentSize` and a request
length `n ≥ 1` whose covering blocks fit the allocated arrays
(`offset + n ≤ numBlocks * blockSize`), with canonically contented cache
and every covering block fetchable, `Read(offset, n)` succeeds and
returns at most `n` rounded up to the next block boundary worth of bytes
and never fewer than `min n (contentSize - offset)` bytes.  The original
claim quantifies over *every* request length `n`; that is false — for
`n = 0` at a block-aligned offset, and for any `n` reaching past the
allocated arrays, `Read` panics with an index out of range instead of
returning bytes (`C1_cex`). -/
theorem C1_read_byte_bounds (cfg : Fetcher) (h : Handle) (offset n : Nat)
    (hbs : 0 < cfg.blockSize)
    (hwf : h.numBlocks = h.size / cfg.blockSize + 1)
    (hoff : offset < h.size) (hn : 1 ≤ n)
    (hbound : offset + n ≤ h.numBlocks * cfg.blockSize)
    (hcanon : ∀ j v, h.cache j = some v → v = canonBlock cfg.blockSize h.size j)
    (hfetchable : ∀ o ∈ coveringBlocks cfg.blockSize offset n,
      (h.cache (o / cfg.blockSize)).isNone → h.active (o / cfg.blockSize) = false) :
    ∃ data, (pfRead cfg (canonNet cfg.blockSize h.size) h offset n).1 = .success data ∧
      data.length ≤ ((n + cfg.blockSize - 1) / cfg.blockSize) * cfg.blockSize ∧
      min n (h.size - offset) ≤ data.length := by
  obtain ⟨data, hd, hlen⟩ :=
    read_bytes_bounds cfg h offset n hbs hwf hoff hn hbound hcanon hfetchable
  exact ⟨data, hd,
    by rw [hlen]; exact le_trans (min_le_left _ _) (le_roundUp n cfg.blockSize hbs),
    by rw [hlen]⟩

/-- Witness for `C1_read_byte_bounds`: a concrete in-range request
(`offset = 2`, `n = 5`) on a fresh 10-byte handle with block size 4. -/
theorem C1_read_byte_bounds_witness :
    ∃ data, (pfRead exCfg (canonNet exCfg.blockSize (exHandle 10).size)
        (exHandle 10) 2 5).1 = .success data ∧
      data.length ≤ ((5 + exCfg.blockSize - 1) / exCfg.blockSize) * exCfg.blockSize ∧
      min 5 ((exHandle 10).size - 2) ≤ data.length :=
  C1_read_byte_bounds exCfg (exHandle 10) 2 5 (by decide) rfl (by decide) (by decide)
    (by decide) (fun j v hv => nomatch hv) (fun o ho hnone => rfl)

/-- Counterexample to the unamended C1: at the block-aligned
`offset = 4 < contentSize = 10` with `n = 0`, the covering range
`[4/4, (4+0+4-1)/4)` is empty, `blocks[0]` panics, and no byte count is
returned at all. -/
theorem C1_cex :
    (pfRead exCfg (canonNet 4 10) (exHandle 10) 4 0).1 = .oobR ∧
    ¬ ∃ data, (pfRead exCfg (canonNet 4 10) (exHandle 10) 4 0).1 = .success data := by
  have h1 : (pfRead exCfg (canonNet 4 10) (exHandle 10) 4 0).1 = .oobR := by decide
  refine ⟨h1, ?_⟩
  rintro ⟨data, hdata⟩
  rw [h1] at hdata
  cases hdata

/-- **C2** (code bug).  The claim says `Read` clips the requested range
to content size and therefore only ever accesses block indices inside
the `cache`/`active` arrays.  The code never clips: with content size 10
and block size 4 the arrays have `10/4 + 1 = 3` slots, yet `Read(0, 13)`
walks blocks `0,1,2,3` and indexes slot 3 — out of range — and
`Read(4, 0)` builds an empty covering slice and evaluates `blocks[0]` of
it.  Both panic in Go; the embedding surfaces both as `oobR`. -/
theorem C2_no_clipping_out_of_range :
    (pfRead exCfg (canonNet 4 10) (exHandle 10) 0 13).1 = .oobR ∧
    (pfRead exCfg (canonNet 4 10) (exHandle 10) 4 0).1 = .oobR :=
  ⟨by decide, by decide⟩

/-- **C6** (corrected).  `NewHandle` allocates the `cache` and `active`
arrays with `size/blockSize + 1` slots.  That equals
`ceil(size/blockSize) + 1` only when `blockSize` divides `size`; for
every other size it equals `ceil(size/blockSize)` exactly, i.e. there is
no spare slot at all (`C6_cex`). -/
theorem C6_alloc_slots (f : Fetcher) (env : NetEnv) (reg : Reg) (hash : String)
    (size : Nat) (peers : List String) (h : Handle)
    (hbs : 0 < f.blockSize)
    (hh : (f.newHandle env reg hash size peers).1 = some h) :
    h.numBlocks = size / f.blockSize + 1 ∧
    (f.blockSize ∣ size →
      h.numBlocks = (size + f.blockSize - 1) / f.blockSize + 1) ∧
    (¬ f.blockSize ∣ size →
      h.numBlocks = (size + f.blockSize - 1) / f.blockSize) := by
  have hnum : h.numBlocks = size / f.blockSize + 1 := by
    simp only [Fetcher.newHandle] at hh
    split_ifs at hh
    injection hh with hh2
    rw [← hh2]
  obtain ⟨hc1, hc2⟩ := ceilDiv_cases size f.blockSize hbs
  refine ⟨hnum, fun hd => ?_, fun hd => ?_⟩
  · rw [hnum, hc1 hd]
  · rw [hnum, hc2 hd]

/-- Witness for `C6_alloc_slots`: 5000 bytes at block size 4096. -/
theorem C6_alloc_slots_witness :
    exHandleBig.numBlocks = 5000 / 4096 + 1 ∧
    (4096 ∣ 5000 → exHandleBig.numBlocks = (5000 + 4096 - 1) / 4096 + 1) ∧
    (¬ 4096 ∣ 5000 → exHandleBig.numBlocks = (5000 + 4096 - 1) / 4096) :=
  C6_alloc_slots ⟨4096, 0⟩ exEnv exReg "h" 5000 ["u@h:1"] exHandleBig (by decide) rfl

/-- Counterexample to the unamended C6: for 5000 bytes at block size
4096 (not an exact multiple) `NewHandle` allocates `5000/4096 + 1 = 2`
slots, while `ceil(5000/4096) + 1 = 3`; the allocation equals the exact
block need `ceil(5000/4096) = 2` with no over-allocation. -/
theorem C6_cex :
    ((Fetcher.newHandle ⟨4096, 0⟩ exEnv exReg "h" 5000 ["u@h:1"]).1.map
        Handle.numBlocks) = some 2 ∧
    (5000 + 4096 - 1) / 4096 + 1 = 3 :=
  ⟨by decide, by decide⟩

/-- **C7** (corrected).  When either of the two sequential liveness
probes of a freshly created peer link fails, the link's latency is
indeed left unset and the link is retained in the registry — but **no
error is surfaced to the caller of peer creation**: `NewPeer` calls
`r.MeasureLatency()` without reading its return value and returns the
link with a `nil` error (`C7_cex`). -/
theorem C7_probe_failure (env : NetEnv) (ident : String) (user addr : List Char)
    (rest : List (List Char))
    (hsplit : splitOnAt '@' ident.data = user :: addr :: rest)
    (hconn : env.connectOk ident = true)
    (hping : env.ping1Ok ident = false ∨ env.ping2Ok ident = false) :
    newPeer env ident = some { ident := ident, latency := none } ∧
    ∀ (f : Fetcher) (reg : Reg) (hash : String) (size : Nat),
      reg ident = none →
      (f.newHandle env reg hash size [ident]).2 ident =
        some { ident := ident, latency := none } ∧
      ((f.newHandle env reg hash size [ident]).1).isSome = true := by
  have hnp : newPeer env ident = some { ident := ident, latency := none } := by
    unfold newPeer
    rw [hsplit]
    simp only [hconn, if_true]
    unfold measureLatency
    rcases hping with hp | hp
    · rw [if_pos hp]
    · by_cases hp1 : env.ping1Ok ident = false
      · rw [if_pos hp1]
      · rw [if_neg hp1, if_pos hp]
  refine ⟨hnp, fun f reg hash size hreg => ?_⟩
  simp only [Fetcher.newHandle, addPeersLoop, hreg, hnp]
  constructor
  · simp
  · rfl

/-- Witness for `C7_probe_failure`: the identity `"a@b:1"` in an
environment whose first probe fails. -/
theorem C7_probe_failure_witness :
    newPeer cexEnv "a@b:1" = some { ident := "a@b:1", latency := none } ∧
    ∀ (f : Fetcher) (reg : Reg) (hash : String) (size : Nat),
      reg "a@b:1" = none →
      (f.newHandle cexEnv reg hash size ["a@b:1"]).2 "a@b:1" =
        some { ident := "a@b:1", latency := none } ∧
      ((f.newHandle cexEnv reg hash size ["a@b:1"]).1).isSome = true :=
  C7_probe_failure cexEnv "a@b:1" ['a'] ['b', ':', '1'] [] (by decide) rfl (Or.inl rfl)

/-- Counterexample to the unamended C7: with the first liveness probe
failing, `MeasureLatency` itself reports a ping error, yet `NewPeer`
returns the link with **no error** (a `some` result with latency unset):
the probe error never reaches `NewPeer`'s caller. -/
theorem C7_cex :
    (measureLatency cexEnv { ident := "a@b:1", latency := none }).2 =
      some .pingFailed ∧
    newPeer cexEnv "a@b:1" = some { ident := "a@b:1", latency := none } :=
  ⟨by decide, by decide⟩

/-- **C9** (confirmed).  The tail trim of `Read` computes its cut point
as `(bo + n) % blockSize` with `bo = offset - blocks[0]`, which equals
`(offset + n) % blockSize`: when the requested end is block-aligned the
cut point is zero and the buffer list — in particular its last buffer —
is returned untrimmed; and whenever the trim changes anything, the cut
point was strictly positive and strictly smaller than the last buffer's
length. -/
theorem C9_tail_trim (bs offset n : Nat) (hbs : 0 < bs) (bufs : List Buf) :
    ((offset - offset / bs * bs + n) % bs = (offset + n) % bs) ∧
    ((offset + n) % bs = 0 →
      tailCut bs (offset - offset / bs * bs) n bufs = bufs) ∧
    (tailCut bs (offset - offset / bs * bs) n bufs ≠ bufs →
      0 < (offset + n) % bs ∧
      ∃ last, bufs.getLast? = some last ∧ (offset + n) % bs < last.length) := by
  have hbo : offset - offset / bs * bs = offset % bs := bo_eq_mod offset bs hbs
  have hc : (offset % bs + n) % bs = (offset + n) % bs := mod_add_left_mod offset n bs
  rw [hbo]
  refine ⟨hc, fun h0 => ?_, fun hne => ?_⟩
  · simp only [tailCut, hc, h0]
    rw [if_neg (by omega)]
  · simp only [tailCut, hc] at hne
    by_cases hpos : 0 < (offset + n) % bs
    · rw [if_pos hpos] at hne
      obtain ⟨last, hl, hg⟩ := setLast_ne hne
      refine ⟨hpos, last, hl, ?_⟩
      by_contra hlen
      exact hg (by rw [if_neg hlen])
    · rw [if_neg hpos] at hne
      exact absurd rfl hne

/-- Witness for `C9_tail_trim`: a request ending exactly on a block
boundary (`offset = 2`, `n = 6`, block size 4) over two 4-byte
buffers. -/
theorem C9_tail_trim_witness :
    ((2 - 2 / 4 * 4 + 6) % 4 = (2 + 6) % 4) ∧
    ((2 + 6) % 4 = 0 →
      tailCut 4 (2 - 2 / 4 * 4) 6 [List.replicate 4 (0 : UInt8), List.replicate 4 (0 : UInt8)] =
        [List.replicate 4 (0 : UInt8), List.replicate 4 (0 : UInt8)]) ∧
    (tailCut 4 (2 - 2 / 4 * 4) 6 [List.replicate 4 (0 : UInt8), List.replicate 4 (0 : UInt8)] ≠
        [List.replicate 4 (0 : UInt8), List.replicate 4 (0 : UInt8)] →
      0 < (2 + 6) % 4 ∧
      ∃ last, [List.replicate 4 (0 : UInt8), List.replicate 4 (0 : UInt8)].getLast? = some last ∧
        (2 + 6) % 4 < last.length) :=
  C9_tail_trim 4 2 6 (by decide) [List.replicate 4 (0 : UInt8), List.replicate 4 (0 : UInt8)]

/-- **C10** (confirmed).  If the underlying handle read returns an
error, the stream's `Read` returns a byte count of 0 together with that
error and leaves the cursor offset unchanged, so a subsequent stream
read retries the same range. -/
theorem C10_stream_error_atomic (readFn : Nat → Nat → ReadResult) (s : Stream)
    (plen : Nat) (e : FErr) (herr : readFn s.offset plen = .failure (some e)) :
    streamRead readFn s plen = some ((0, some (.fetch e)), s) := by
  unfold streamRead
  rw [herr]

/-- Witness for `C10_stream_error_atomic`: a constantly failing
underlying read at cursor 5. -/
theorem C10_stream_error_atomic_witness :
    streamRead (fun _ _ => .failure (some .fetchFailed)) ⟨5⟩ 4 =
      some ((0, some (.fetch .fetchFailed)), ⟨5⟩) :=
  C10_stream_error_atomic (fun _ _ => .failure (some .fetchFailed)) ⟨5⟩ 4
    .fetchFailed rfl

/-- **C3** (corrected).  After a fetch of block `b` fails on all peers,
the shared last-error is recorded — but the slot does **not** revert to
the fetchable state: the goroutine closes `h.active[b]` without ever
resetting it to `nil`, so the marker latches.  A subsequent `Read`
needing block `b` sees the empty slot with a non-nil marker, launches
**no** new fetch (the fetch counter stays put), and returns the stale
recorded error again — even when the peers have recovered (`net₂`
arbitrary). -/
theorem C3_failed_fetch_no_retry (cfg : Fetcher) (net₁ net₂ : Nat → Option Buf)
    (h : Handle) (offset n b : Nat)
    (hbs : 0 < cfg.blockSize)
    (hwf : h.numBlocks = h.size / cfg.blockSize + 1)
    (hoff : offset < h.size) (hn : 1 ≤ n)
    (hbound : offset + n ≤ h.numBlocks * cfg.blockSize)
    (hcov1 : coveringBlocks cfg.blockSize offset n = [b * cfg.blockSize])
    (hfail : net₁ (b * cfg.blockSize) = none)
    (hcache : h.cache b = none) (hact : h.active b = false)
    (hk : cfg.prefetchBlocks = 0) :
    (pfRead cfg net₁ h offset n).1 = .failure (some .fetchFailed) ∧
    (pfRead cfg net₁ h offset n).2.cache b = none ∧
    (pfRead cfg net₁ h offset n).2.active b = true ∧
    (pfRead cfg net₁ h offset n).2.fetches b = h.fetches b + 1 ∧
    (pfRead cfg net₂ (pfRead cfg net₁ h offset n).2 offset n).1 =
      .failure (some .fetchFailed) ∧
    (pfRead cfg net₂ (pfRead cfg net₁ h offset n).2 offset n).2.fetches b =
      (pfRead cfg net₁ h offset n).2.fetches b := by
  set bs := cfg.blockSize with hbsdef
  have hdb : b * bs / bs = b := Nat.mul_div_cancel _ hbs
  have hbin : b < h.numBlocks := by
    have := cov_in_range hbs hbound (b * bs) (by rw [hcov1]; exact List.mem_singleton_self _)
    rwa [hdb] at this
  have hfb : offset / bs = b := by
    obtain ⟨rest, hcons⟩ := @coveringBlocks_cons bs offset n hbs hn
    rw [hcov1] at hcons
    injection hcons with h1 h2
    have := Nat.eq_of_mul_eq_mul_right hbs h1
    omega
  have hfo : (offset / bs) * bs / bs = offset / bs := Nat.mul_div_cancel _ hbs
  obtain ⟨h₁, u, h₂, h₃, hlaunch, hpurge, hprefetch, hsz₃, hnb₃, hread⟩ :=
    pfRead_pipeline cfg net₁ h offset n hbs hwf hoff hn hbound
  rw [hcov1, launchLoop_single_fetch hbs hbin hcache hact] at hlaunch
  simp only [Option.some.injEq, Prod.mk.injEq] at hlaunch
  obtain ⟨hh₁, hu⟩ := hlaunch
  subst hh₁
  have h₁cache : (fetchStep bs net₁ h (b * bs)).cache b = none := by
    rw [fetchStep_fail_cache hfail]; exact hcache
  have h₁act : (fetchStep bs net₁ h (b * bs)).active b = true := by
    have := fetchStep_active_self bs net₁ h (b * bs)
    rwa [hdb] at this
  have h₁err : (fetchStep bs net₁ h (b * bs)).lastErr = some .fetchFailed :=
    fetchStep_fail_lastErr hfail
  have h₁fet : (fetchStep bs net₁ h (b * bs)).fetches b = h.fetches b + 1 := by
    have := fetchStep_fetches_self bs net₁ h (b * bs)
    rwa [hdb] at this
  have hkeep := purgeStep_keep hpurge b (by rw [hfo, hfb]; omega)
  obtain ⟨hmeta_sz, hmeta_nb, hmeta_err, hmeta_fet⟩ := purgeStep_meta hpurge
  rw [hk] at hprefetch
  simp only [List.range_zero, prefetchLoop, Option.some.injEq] at hprefetch
  subst hprefetch
  have hcache₂ : h₂.cache b = none := by rw [hkeep.1]; exact h₁cache
  have hact₂ : h₂.active b = true := by rw [hkeep.2]; exact h₁act
  have herr₂ : h₂.lastErr = some .fetchFailed := by rw [hmeta_err]; exact h₁err
  have hfet₂ : h₂.fetches b = h.fetches b + 1 := by rw [hmeta_fet]; exact h₁fet
  rw [hcov1] at hread
  have hg : gatherLoop bs h₂ [b * bs] [] = .missing := by
    simp only [gatherLoop, hdb]
    rw [if_pos (by rw [hnb₃]; exact hbin)]
    rw [hcache₂]
  have hval : pfRead cfg net₁ h offset n = (.failure h₂.lastErr, h₂) := by
    rw [hread, hg]
  have hsnd : (pfRead cfg net₁ h offset n).2 = h₂ := by rw [hval]
  have hwf₂ : h₂.numBlocks = h₂.size / bs + 1 := by rw [hnb₃, hsz₃]; exact hwf
  have hoff₂ : offset < h₂.size := by rw [hsz₃]; exact hoff
  have hbound₂ : offset + n ≤ h₂.numBlocks * bs := by rw [hnb₃]; exact hbound
  obtain ⟨h₁', u', h₂', h₃', hlaunch', hpurge', hprefetch', hsz₃', hnb₃', hread'⟩ :=
    pfRead_pipeline cfg net₂ h₂ offset n hbs hwf₂ hoff₂ hn hbound₂
  rw [hcov1, launchLoop_single_skip hbs (by rw [hnb₃]; exact hbin) hcache₂ hact₂]
    at hlaunch'
  simp only [Option.some.injEq, Prod.mk.injEq] at hlaunch'
  obtain ⟨hh₁', hu'⟩ := hlaunch'
  subst hh₁'
  have hkeep' := purgeStep_keep hpurge' b (by rw [hfo, hfb]; omega)
  obtain ⟨hsz₂', hnb₂', herr₂', hfet₂'⟩ := purgeStep_meta hpurge'
  rw [hk] at hprefetch'
  simp only [List.range_zero, prefetchLoop, Option.some.injEq] at hprefetch'
  subst hprefetch'
  have hcache₂' : h₂'.cache b = none := by rw [hkeep'.1]; exact hcache₂
  rw [hcov1] at hread'
  have hg' : gatherLoop bs h₂' [b * bs] [] = .missing := by
    simp only [gatherLoop, hdb]
    rw [if_pos (by rw [hnb₃', hnb₃]; exact hbin)]
    rw [hcache₂']
  have hval' : pfRead cfg net₂ h₂ offset n = (.failure h₂'.lastErr, h₂') := by
    rw [hread', hg']
  have herr₂'' : h₂'.lastErr = some .fetchFailed := by rw [herr₂']; exact herr₂
  have hfet₂'' : h₂'.fetches b = h₂.fetches b := by rw [hfet₂']
  refine ⟨by rw [hval, herr₂], by rw [hsnd]; exact hcache₂, by rw [hsnd]; exact hact₂,
    by rw [hsnd]; exact hfet₂, by rw [hsnd, hval', herr₂''],
    by rw [hsnd, hval']; exact hfet₂''⟩

/-- Witness for `C3_failed_fetch_no_retry`: block 0 of a fresh 10-byte
handle, first read with all peers down, second with all peers healthy. -/
theorem C3_failed_fetch_no_retry_witness :
    (pfRead exCfg exNetFail (exHandle 10) 0 1).1 = .failure (some .fetchFailed) ∧
    (pfRead exCfg exNetFail (exHandle 10) 0 1).2.cache 0 = none ∧
    (pfRead exCfg exNetFail (exHandle 10) 0 1).2.active 0 = true ∧
    (pfRead exCfg exNetFail (exHandle 10) 0 1).2.fetches 0 =
      (exHandle 10).fetches 0 + 1 ∧
    (pfRead exCfg (canonNet 4 10) (pfRead exCfg exNetFail (exHandle 10) 0 1).2 0 1).1 =
      .failure (some .fetchFailed) ∧
    (pfRead exCfg (canonNet 4 10)
        (pfRead exCfg exNetFail (exHandle 10) 0 1).2 0 1).2.fetches 0 =
      (pfRead exCfg exNetFail (exHandle 10) 0 1).2.fetches 0 :=
  C3_failed_fetch_no_retry exCfg exNetFail (canonNet 4 10) (exHandle 10) 0 1 0
    (by decide) rfl (by decide) (by decide) (by decide) (by decide) rfl rfl rfl rfl

/-- Counterexample to the unamended C3: after block 0 fails on a fresh
10-byte handle, a second read of the same block with every peer healthy
again still returns the stale fetch error and launches no new fetch —
the fetch counter of block 0 stays at 1. -/
theorem C3_cex :
    (pfRead exCfg exNetFail (exHandle 10) 0 1).1 = .failure (some .fetchFailed) ∧
    (pfRead exCfg exNetFail (exHandle 10) 0 1).2.fetches 0 = 1 ∧
    (pfRead exCfg (canonNet 4 10) (pfRead exCfg exNetFail (exHandle 10) 0 1).2 0 1).1 =
      .failure (some .fetchFailed) ∧
    (pfRead exCfg (canonNet 4 10)
        (pfRead exCfg exNetFail (exHandle 10) 0 1).2 0 1).2.fetches 0 = 1 :=
  ⟨by decide, by decide, by decide, by decide⟩

/-- **C5** (corrected).  After a `Read` whose first needed block is
`b + 1`, a cached block `b` is evicted (cache slot and marker cleared)
and a subsequent read of block `b` launches a new fetch, and no other
cached block is dropped — but only for `b ≥ 1`: the purge guard is
`b > 0`, so block 0 is never evicted (`C5_cex`), against the claim's
"every block index `b ≥ 0`". -/
theorem C5_eviction (cfg : Fetcher) (net net₂ : Nat → Option Buf) (h : Handle)
    (offset n b : Nat)
    (hbs : 0 < cfg.blockSize)
    (hwf : h.numBlocks = h.size / cfg.blockSize + 1)
    (hoff : offset < h.size) (hn : 1 ≤ n)
    (hbound : offset + n ≤ h.numBlocks * cfg.blockSize)
    (hfb : offset / cfg.blockSize = b + 1) (hb1 : 1 ≤ b)
    (hcached : (h.cache b).isSome) :
    (pfRead cfg net h offset n).2.cache b = none ∧
    (pfRead cfg net h offset n).2.active b = false ∧
    (∀ j v, j ≠ b → h.cache j = some v →
      (pfRead cfg net h offset n).2.cache j = some v) ∧
    (pfRead cfg net₂ ((pfRead cfg net h offset n).2)
        (b * cfg.blockSize) 1).2.fetches b =
      (pfRead cfg net h offset n).2.fetches b + 1 := by
  set bs := cfg.blockSize with hbsdef
  have hdb : b * bs / bs = b := Nat.mul_div_cancel _ hbs
  obtain ⟨h₁, u, h₂, h₃, hlaunch, hpurge, hprefetch, hsz₃, hnb₃, hread⟩ :=
    pfRead_pipeline cfg net h offset n hbs hwf hoff hn hbound
  obtain ⟨hsz₁, hnb₁⟩ := launchLoop_meta hlaunch
  obtain ⟨hsz₂, hnb₂, herrM, hfetM⟩ := purgeStep_meta hpurge
  have hfo : (offset / bs) * bs / bs = offset / bs := Nat.mul_div_cancel _ hbs
  have hne_all : ∀ o ∈ coveringBlocks bs offset n, o / bs ≠ b := by
    intro o ho
    have := (coveringBlocks_idx_lt hbs ho).1
    omega
  obtain ⟨hc₁, ha₁, hf₁⟩ := launchLoop_notouch hlaunch b hne_all
  have htgt : (offset / bs) * bs / bs - 1 = b := by rw [hfo, hfb]; omega
  have hclears := purgeStep_clears hpurge (by rw [htgt]; omega)
    (by rw [htgt, hc₁]; exact hcached)
  rw [htgt] at hclears
  have hwf₂ : h₂.numBlocks = h₂.size / bs + 1 := by
    rw [hnb₂, hnb₁, hsz₂, hsz₁]; exact hwf
  obtain ⟨h₃', heq', hszp, hnbp, htouch⟩ :=
    @prefetchLoop_spec bs net (((offset + n + bs - 1) / bs - 1) * bs) hbs
      (List.range cfg.prefetchBlocks) h₂ hwf₂
  rw [hprefetch, Option.some.injEq] at heq'
  subst heq'
  have hlastdiv : ((offset + n + bs - 1) / bs - 1) * bs / bs =
      (offset + n + bs - 1) / bs - 1 := Nat.mul_div_cancel _ hbs
  have hfe := @covEnd_pos bs offset n hbs hn
  have huntouch : ∀ j, j ≤ b →
      h₃.fetches j = h₂.fetches j ∧ h₃.cache j = h₂.cache j ∧
        h₃.active j = h₂.active j := by
    intro j hj
    by_cases hch : h₃.fetches j = h₂.fetches j ∧ h₃.cache j = h₂.cache j ∧
        h₃.active j = h₂.active j
    · exact hch
    · exfalso
      have hd : h₃.fetches j ≠ h₂.fetches j ∨ h₃.cache j ≠ h₂.cache j ∨
          h₃.active j ≠ h₂.active j := by tauto
      obtain ⟨i, hi, hbeq, _, _, _, _⟩ := htouch j hd
      rw [hlastdiv] at hbeq
      omega
  have h₃cache_b : h₃.cache b = none := by
    rw [(huntouch b le_rfl).2.1]; exact hclears.1
  have h₃act_b : h₃.active b = false := by
    rw [(huntouch b le_rfl).2.2]; exact hclears.2
  have hmono : ∀ j v, j ≠ b → h.cache j = some v → h₃.cache j = some v := by
    intro j v hjne hv
    have h₁v : h₁.cache j = some v := launchLoop_mono hlaunch j v hv
    have h₂v : h₂.cache j = some v :=
      purgeStep_mono hpurge (by rw [htgt]; exact hjne) h₁v
    by_cases hch : h₃.cache j = h₂.cache j
    · rw [hch]; exact h₂v
    · exfalso
      obtain ⟨i, hi, hbeq, hblt, hcnone, _, _⟩ := htouch j (Or.inr (Or.inl hch))
      rw [h₂v] at hcnone
      exact Option.noConfusion hcnone
  have hsnd : (pfRead cfg net h offset n).2 = h₃ := by
    rw [hread]
    rcases gatherLoop bs h₃ (coveringBlocks bs offset n) [] with _ | _ | bufs <;> rfl
  have hcov₂ : coveringBlocks bs (b * bs) 1 = [b * bs] := by
    have h9 : b * bs + 1 + bs - 1 = (b + 1) * bs := by
      have h10 : (b + 1) * bs = b * bs + bs := by ring
      omega
    unfold coveringBlocks
    rw [h9, Nat.mul_div_cancel _ hbs, Nat.mul_div_cancel _ hbs]
    rw [show b + 1 - b = 1 from by omega]
    rfl
  have hwf₃ : h₃.numBlocks = h₃.size / bs + 1 := by rw [hnb₃, hsz₃]; exact hwf
  have hbin : b < h.numBlocks := by
    have hle : offset / bs ≤ h.size / bs := Nat.div_le_div_right (le_of_lt hoff)
    rw [hwf]
    omega
  have hoff₃ : b * bs < h₃.size := by
    rw [hsz₃]
    have h1 : (offset / bs) * bs ≤ offset := Nat.div_mul_le_self _ _
    have h2 : (b + 1) * bs = b * bs + bs := by ring
    rw [hfb] at h1
    omega
  have hbound₃ : b * bs + 1 ≤ h₃.numBlocks * bs := by
    rw [hnb₃]
    have h2 : (b + 1) * bs = b * bs + bs := by ring
    have h3 : (b + 1) * bs ≤ h.numBlocks * bs := Nat.mul_le_mul_right _ hbin
    omega
  obtain ⟨h₁', u', h₂', h₃', hlaunch', hpurge', hprefetch', hsz₃', hnb₃', hread'⟩ :=
    pfRead_pipeline cfg net₂ h₃ (b * bs) 1 hbs hwf₃ hoff₃ le_rfl hbound₃
  rw [hcov₂, launchLoop_single_fetch hbs (by rw [hnb₃]; exact hbin) h₃cache_b h₃act_b]
    at hlaunch'
  simp only [Option.some.injEq, Prod.mk.injEq] at hlaunch'
  obtain ⟨hh₁', hu'⟩ := hlaunch'
  subst hh₁'
  have hf₁' : (fetchStep bs net₂ h₃ (b * bs)).fetches b = h₃.fetches b + 1 := by
    have := fetchStep_fetches_self bs net₂ h₃ (b * bs)
    rwa [hdb] at this
  obtain ⟨hsz₂', hnb₂', herr₂', hfet₂'⟩ := purgeStep_meta hpurge'
  have hwf₂' : h₂'.numBlocks = h₂'.size / bs + 1 := by
    rw [hsz₂', hnb₂', fetchStep_size, fetchStep_numBlocks, hnb₃, hsz₃]
    exact hwf
  obtain ⟨h₃'', heq'', hsz'', hnb'', htouch'⟩ :=
    @prefetchLoop_spec bs net₂ (((b * bs + 1 + bs - 1) / bs - 1) * bs) hbs
      (List.range cfg.prefetchBlocks) h₂' hwf₂'
  rw [hprefetch', Option.some.injEq] at heq''
  subst heq''
  have hlastdiv₂ : ((b * bs + 1 + bs - 1) / bs - 1) * bs / bs =
      (b * bs + 1 + bs - 1) / bs - 1 := Nat.mul_div_cancel _ hbs
  have hE2 : (b * bs + 1 + bs - 1) / bs = b + 1 := by
    have h9 : b * bs + 1 + bs - 1 = (b + 1) * bs := by
      have h10 : (b + 1) * bs = b * bs + bs := by ring
      omega
    rw [h9, Nat.mul_div_cancel _ hbs]
  have hfetpf : h₃'.fetches b = h₂'.fetches b := by
    by_cases hch : h₃'.fetches b = h₂'.fetches b
    · exact hch
    · exfalso
      obtain ⟨i, hi, hbeq, _, _, _, _⟩ := htouch' b (Or.inl hch)
      rw [hlastdiv₂, hE2] at hbeq
      omega
  have hval' : (pfRead cfg net₂ h₃ (b * bs) 1).2 = h₃' := by
    rw [hread']
    rcases gatherLoop bs h₃' (coveringBlocks bs (b * bs) 1) [] with _ | _ | bufs <;> rfl
  refine ⟨by rw [hsnd]; exact h₃cache_b, by rw [hsnd]; exact h₃act_b,
    fun j v hjne hv => by rw [hsnd]; exact hmono j v hjne hv, ?_⟩
  rw [hsnd, hval', hfetpf, hfet₂', hf₁']

/-- Witness for `C5_eviction`: a handle with block 1 cached; a read at
offset 8 (first needed block 2) evicts it, and re-reading block 1
fetches anew. -/
theorem C5_eviction_witness :
    (pfRead exCfg (canonNet 4 20) exHandleC1 8 1).2.cache 1 = none ∧
    (pfRead exCfg (canonNet 4 20) exHandleC1 8 1).2.active 1 = false ∧
    (∀ j v, j ≠ 1 → exHandleC1.cache j = some v →
      (pfRead exCfg (canonNet 4 20) exHandleC1 8 1).2.cache j = some v) ∧
    (pfRead exCfg (canonNet 4 20) ((pfRead exCfg (canonNet 4 20) exHandleC1 8 1).2)
        (1 * exCfg.blockSize) 1).2.fetches 1 =
      (pfRead exCfg (canonNet 4 20) exHandleC1 8 1).2.fetches 1 + 1 :=
  C5_eviction exCfg (canonNet 4 20) (canonNet 4 20) exHandleC1 8 1 1
    (by decide) rfl (by decide) (by decide) (by decide) (by decide) (by decide)
    (by decide)

/-- Counterexample to the unamended C5 at `b = 0`: with block 0 cached,
a read whose first needed block is 1 leaves block 0 cached — the purge
guard `b > 0` skips index 0, so "every block index `b ≥ 0`" fails. -/
theorem C5_cex :
    ((pfRead exCfg (canonNet 4 20) exHandleC0 4 1).2.cache 0).isSome = true := by
  decide

/-- **C4** (confirmed).  Single-flight: from any state satisfying the
single-flight invariant (e.g. a fresh handle), every reachable state of
the concurrent system has at most one fetch goroutine running per
block; and two concurrent `Read` bookkeeping steps that both need an
uncached, unmarked block `b` launch exactly one fetch of `b` between
them — the first launches it (under the mutex, because the slot is
empty with no marker), the second sees the in-flight marker and
launches none. -/
theorem C4_single_flight (cfg : Fetcher) (s₀ s : CState) (hinv : InvC s₀)
    (hreach : CReach cfg s₀ s) :
    (∀ b, s.running b ≤ 1) ∧
    (∀ offset n offset₂ n₂ b,
      0 < cfg.blockSize → 1 ≤ n → offset < s.size →
      b ∈ (coveringBlocks cfg.blockSize offset n).map (· / cfg.blockSize) →
      s.cache b = none → s.marker b = .absent →
      (readStepC cfg (readStepC cfg s offset n) offset₂ n₂).fetchesC b =
        s.fetchesC b + 1) := by
  have hinvs := CReach_inv hinv hreach
  constructor
  · intro b
    obtain ⟨h1, _⟩ := hinvs b
    rw [h1]
    split <;> omega
  · intro offset n offset₂ n₂ b hbs hn hoff hmem hc hm
    obtain ⟨c1, m1, f1⟩ := readStepC_fetch_once cfg s offset n b hbs hn hoff hmem hc hm
    obtain ⟨c2, m2, f2⟩ := readStepC_no_fetch cfg _ offset₂ n₂ b hbs c1 m1
    rw [f2, f1]

/-- Witness for `C4_single_flight`: the fresh concurrent state of a
20-byte handle, reachable from itself. -/
theorem C4_single_flight_witness :
    (∀ b, (exCState 20).running b ≤ 1) ∧
    (∀ offset n offset₂ n₂ b,
      0 < exCfg.blockSize → 1 ≤ n → offset < (exCState 20).size →
      b ∈ (coveringBlocks exCfg.blockSize offset n).map (· / exCfg.blockSize) →
      (exCState 20).cache b = none → (exCState 20).marker b = .absent →
      (readStepC exCfg (readStepC exCfg (exCState 20) offset n) offset₂ n₂).fetchesC b =
        (exCState 20).fetchesC b + 1) :=
  C4_single_flight exCfg (exCState 20) (exCState 20)
    (fun b => ⟨rfl, fun _ => rfl⟩) Relation.ReflTransGen.refl

/-- **C8** (confirmed).  The prefetch stage of a `Read` touches only
blocks in the window of `prefetchBlocks` indices immediately after the
last needed block, and only those whose start offset lies inside the
content and that are neither cached nor marked in flight — each such
block's fetch counter grows by exactly one; with the window nonempty
and its first block eligible, that block is indeed fetched; and a
`Read` never waits on a prefetched block: every marker it waits on
belongs to a needed block. -/
theorem C8_prefetch (cfg : Fetcher) (net : Nat → Option Buf) (h₂ h₃ : Handle)
    (lastO : Nat) (hbs : 0 < cfg.blockSize)
    (hwf : h₂.numBlocks = h₂.size / cfg.blockSize + 1)
    (hpf : prefetchLoop cfg.blockSize net lastO (List.range cfg.prefetchBlocks) h₂ =
      some h₃) :
    (∀ b, (h₃.fetches b ≠ h₂.fetches b ∨ h₃.cache b ≠ h₂.cache b ∨
        h₃.active b ≠ h₂.active b) →
      lastO / cfg.blockSize < b ∧ b ≤ lastO / cfg.blockSize + cfg.prefetchBlocks ∧
      b * cfg.blockSize < h₂.size ∧ h₂.cache b = none ∧ h₂.active b = false ∧
      h₃.fetches b = h₂.fetches b + 1) ∧
    (∀ k', cfg.prefetchBlocks = k' + 1 →
      (lastO / cfg.blockSize + 1) * cfg.blockSize < h₂.size →
      h₂.cache (lastO / cfg.blockSize + 1) = none →
      h₂.active (lastO / cfg.blockSize + 1) = false →
      h₃.fetches (lastO / cfg.blockSize + 1) =
        h₂.fetches (lastO / cfg.blockSize + 1) + 1) ∧
    (∀ (h' : Handle) (offset n b : Nat), b ∈ pfReadWaitList cfg net h' offset n →
      b ∈ (coveringBlocks cfg.blockSize offset n).map (· / cfg.blockSize)) := by
  set bs := cfg.blockSize with hbsdef
  refine ⟨?_, ?_, ?_⟩
  · obtain ⟨h₃', heq', hsz', hnb', htouch⟩ :=
      @prefetchLoop_spec bs net lastO hbs (List.range cfg.prefetchBlocks) h₂ hwf
    rw [hpf, Option.some.injEq] at heq'
    subst heq'
    intro b hb
    obtain ⟨i, hi, hbeq, hlt, hcn, han, hf1⟩ := htouch b hb
    have hik : i < cfg.prefetchBlocks := List.mem_range.mp hi
    exact ⟨by omega, by omega, hlt, hcn, han, hf1⟩
  · intro k' hk' hin hc0 ha0
    rw [hk', List.range_succ_eq_map] at hpf
    have hbin₀ : lastO / bs + 1 < h₂.numBlocks := by
      rw [hwf]
      by_contra hcon
      push_neg at hcon
      have h1 : h₂.size / bs ≤ lastO / bs := by omega
      have h2 : (h₂.size / bs) * bs ≤ (lastO / bs) * bs := Nat.mul_le_mul_right _ h1
      have h3 : (lastO / bs + 1) * bs = (lastO / bs) * bs + bs := by ring
      have hdiv := Nat.div_add_mod h₂.size bs
      have hmod := Nat.mod_lt h₂.size hbs
      have hcm : bs * (h₂.size / bs) = (h₂.size / bs) * bs := Nat.mul_comm _ _
      omega
    have hstep : prefetchStep bs net h₂ lastO 0 =
        some (fetchStep bs net h₂ ((lastO / bs + 1) * bs)) := by
      unfold prefetchStep
      rw [Nat.add_zero]
      rw [if_pos hin, if_pos hbin₀, if_pos ⟨by rw [hc0]; rfl, ha0⟩]
    simp only [prefetchLoop, hstep] at hpf
    have hdb₀ : (lastO / bs + 1) * bs / bs = lastO / bs + 1 := Nat.mul_div_cancel _ hbs
    have hfet0 : (fetchStep bs net h₂ ((lastO / bs + 1) * bs)).fetches (lastO / bs + 1) =
        h₂.fetches (lastO / bs + 1) + 1 := by
      have := fetchStep_fetches_self bs net h₂ ((lastO / bs + 1) * bs)
      rwa [hdb₀] at this
    have hwf' : (fetchStep bs net h₂ ((lastO / bs + 1) * bs)).numBlocks =
        (fetchStep bs net h₂ ((lastO / bs + 1) * bs)).size / bs + 1 := by
      rw [fetchStep_size, fetchStep_numBlocks]
      exact hwf
    obtain ⟨h₃'', heq'', hsz'', hnb'', htouch''⟩ :=
      @prefetchLoop_spec bs net lastO hbs ((List.range k').map Nat.succ)
        (fetchStep bs net h₂ ((lastO / bs + 1) * bs)) hwf'
    rw [hpf, Option.some.injEq] at heq''
    subst heq''
    by_cases hch : h₃.fetches (lastO / bs + 1) =
        (fetchStep bs net h₂ ((lastO / bs + 1) * bs)).fetches (lastO / bs + 1)
    · rw [hch, hfet0]
    · exfalso
      obtain ⟨i, hi, hbeq, _, _, _, _⟩ := htouch'' (lastO / bs + 1) (Or.inl hch)
      obtain ⟨j, hj, rfl⟩ := List.mem_map.mp hi
      omega
  · intro h' offset n b hb
    unfold pfReadWaitList at hb
    split_ifs at hb with hsz
    · exact absurd hb (List.not_mem_nil b)
    · rcases hl : launchLoop bs net (coveringBlocks bs offset n) h' []
        with _ | ⟨hh, uu⟩
      · rw [hl] at hb
        exact absurd hb (List.not_mem_nil b)
      · rw [hl] at hb
        rcases launchLoop_waitlist hl b hb with hu | hr
        · exact absurd hu (List.not_mem_nil b)
        · exact hr

/-- Witness for `C8_prefetch`: one prefetch block after the last block
of a 20-byte handle (the window starts past end of content, so the
state is unchanged). -/
theorem C8_prefetch_witness :
    (∀ b, ((exHandle 20).fetches b ≠ (exHandle 20).fetches b ∨
        (exHandle 20).cache b ≠ (exHandle 20).cache b ∨
        (exHandle 20).active b ≠ (exHandle 20).active b) →
      16 / (Fetcher.mk 4 1).blockSize < b ∧
      b ≤ 16 / (Fetcher.mk 4 1).blockSize + (Fetcher.mk 4 1).prefetchBlocks ∧
      b * (Fetcher.mk 4 1).blockSize < (exHandle 20).size ∧
      (exHandle 20).cache b = none ∧ (exHandle 20).active b = false ∧
      (exHandle 20).fetches b = (exHandle 20).fetches b + 1) ∧
    (∀ k', (Fetcher.mk 4 1).prefetchBlocks = k' + 1 →
      (16 / (Fetcher.mk 4 1).blockSize + 1) * (Fetcher.mk 4 1).blockSize <
        (exHandle 20).size →
      (exHandle 20).cache (16 / (Fetcher.mk 4 1).blockSize + 1) = none →
      (exHandle 20).active (16 / (Fetcher.mk 4 1).blockSize + 1) = false →
      (exHandle 20).fetches (16 / (Fetcher.mk 4 1).blockSize + 1) =
        (exHandle 20).fetches (16 / (Fetcher.mk 4 1).blockSize + 1) + 1) ∧
    (∀ (h' : Handle) (offset n b : Nat),
      b ∈ pfReadWaitList (Fetcher.mk 4 1) (canonNet 4 20) h' offset n →
      b ∈ (coveringBlocks (Fetcher.mk 4 1).blockSize offset n).map
        (· / (Fetcher.mk 4 1).blockSize)) :=
  C8_prefetch (Fetcher.mk 4 1) (canonNet 4 20) (exHandle 20) (exHandle 20) 16
    (by decide) rfl rfl

end Rufs
